import Mathlib

/-!
Verification development for an Nx plugin that infers PHPUnit `test` /
`test-ci` targets from `phpunit.xml` configuration files.

The TypeScript source is embedded shallowly:
* node `path.posix` operations (`resolve`, `relative`, `join`, `dirname`,
  and the `parse` fields used by the plugin) are modelled on `List Char`
  segment lists, with `String` wrappers carrying the source names;
* the nx devkit helpers `normalizePath` and `joinPathFragments` are
  modelled from their one-line devkit definitions (backslash-to-slash
  substitution, and `normalizePath ∘ path.join`);
* the plugin functions keep their source names (`normalizeOptions`,
  `getTestOutput`, `getCoverageOutput`, `getTargetOutputs`,
  `addSubfolderToOutput`, `normalizeOutput`, `buildPhpUnitTargets`,
  `createNodesInternal`, `createNodesV2`);
* file-system reads (`readdirSync`, `readFileSync` + XML/JSON parsing,
  `getFilesInDirectoryUsingContext`, `getNamedInputs`) are modelled as
  fields of a `Workspace` record, so each run is a pure function of the
  workspace;
* the opaque content hash `calculateHashForCreateNodes(projectRoot,
  normalizedOptions, context, ['composer.json'])` is modelled by its
  (collision-free) arguments that vary within a run: the pair
  `(projectRoot, normalizedOptions)` — the hashed `composer.json`
  contents are a function of `projectRoot` for a fixed workspace.
-/

namespace PhpUnitPlugin

/-! ## Character-level path segments -/

/-- Split a character list on a separator character, like `String.splitOn`
for a one-character separator: `splitOnChar '/' "a/b"` gives `[[a],[b]]`,
and the empty list splits to `[[]]`. -/
def splitOnChar (sep : Char) : List Char → List (List Char)
  | [] => [[]]
  | c :: cs =>
    let r := splitOnChar sep cs
    if c = sep then [] :: r
    else
      match r with
      | s :: rest => (c :: s) :: rest
      | [] => [[c]]

/-- One step of node's path normalization over a stack of already-processed
segments (most recent first): empty and `.` segments are dropped, `..` pops
the previous segment (or is kept, for a relative path that is already at
its top), and any other segment is pushed. -/
def normStep (abs : Bool) (acc : List (List Char)) (seg : List Char) : List (List Char) :=
  if seg = [] ∨ seg = ['.'] then acc
  else if seg = ['.', '.'] then
    match acc with
    | [] => if abs then [] else [['.', '.']]
    | a :: rest => if a = ['.', '.'] then seg :: a :: rest else rest
  else seg :: acc

/-- Normalize a segment list (node `path.posix.normalize` on the segment
level). `abs` says whether the segments describe an absolute path, in which
case leading `..` segments are discarded. -/
def normSegs (abs : Bool) (l : List (List Char)) : List (List Char) :=
  (l.foldl (normStep abs) []).reverse

/-- Drop the longest shared leading run of two segment lists, returning the
two remainders (the core of node `path.posix.relative`). -/
def dropShared : List (List Char) → List (List Char) → List (List Char) × List (List Char)
  | a :: as, b :: bs =>
    if a = b then dropShared as bs else (a :: as, b :: bs)
  | as, bs => (as, bs)

/-- Join segments with a separator character (the inverse of
`splitOnChar` on separator-free segments). -/
def joinSegs (sep : Char) : List (List Char) → List Char
  | [] => []
  | [s] => s
  | s :: rest => s ++ sep :: joinSegs sep rest

/-- Segment list of a path string interpreted as absolute (rooting a
relative path at `/`, which is how node resolves paths against the process
working directory when we fix that directory at the root). -/
def absSegs (s : String) : List (List Char) :=
  normSegs true (splitOnChar '/' s.toList)

namespace NodePath

/-- Model of node `path.posix.resolve(base, cand)` for an absolute `base`:
an absolute `cand` wins, otherwise `cand` is appended to `base`; the
concatenation is normalized as an absolute path. -/
def resolve (base cand : String) : String :=
  let cs := if (cand.toList.head? = some '/') then cand.toList
            else base.toList ++ '/' :: cand.toList
  String.mk ('/' :: joinSegs '/' (normSegs true (splitOnChar '/' cs)))

/-- Model of node `path.posix.relative(f, t)`: both arguments are resolved
(against the root, see `absSegs`), the shared leading segments are dropped,
and the result climbs with `..` for every remaining segment of `f` before
descending into the remaining segments of `t`. -/
def relative (f t : String) : String :=
  let p := dropShared (absSegs f) (absSegs t)
  String.mk (joinSegs '/' (p.1.map (fun _ => ['.', '.']) ++ p.2))

/-- Normalize a nonempty character-list path (node `path.posix.normalize`),
used by `join`: a leading separator marks an absolute path. -/
def normalizeChars (cs : List Char) : String :=
  if cs.head? = some '/' then
    String.mk ('/' :: joinSegs '/' (normSegs true (splitOnChar '/' cs)))
  else if joinSegs '/' (normSegs false (splitOnChar '/' cs)) = [] then "."
  else String.mk (joinSegs '/' (normSegs false (splitOnChar '/' cs)))

/-- Model of node `path.posix.join(...parts)`: empty parts are discarded,
the rest are joined with `/` and normalized; an empty join is `.`. -/
def join (parts : List String) : String :=
  let nonempty := parts.filter (fun p => p ≠ "")
  if nonempty = [] then "."
  else normalizeChars (joinSegs '/' (nonempty.map String.toList))

/-- Model of node `path.posix.dirname` (for the slash-free and
`dir/file` shapes the plugin feeds it: no trailing separators). -/
def dirname (p : String) : String :=
  let segs := splitOnChar '/' p.toList
  match segs.dropLast with
  | [] => "."
  | [[]] => "/"
  | ds => String.mk (joinSegs '/' ds)

/-- Directory part of node `path.posix.parse` (everything before the last
separator). -/
def parseDir (cs : List Char) : List Char :=
  match (splitOnChar '/' cs).dropLast with
  | [] => []
  | [[]] => ['/']
  | ds => joinSegs '/' ds

/-- Base part of node `path.posix.parse` (everything after the last
separator). -/
def parseBase (cs : List Char) : List Char :=
  (splitOnChar '/' cs).getLastD []

/-- Extension part of node `path.posix.parse`: from the last `.` of the
base name to its end, except that a dot-less base or a base whose only dot
is its first character (a hidden file) has no extension. -/
def parseExt (base : List Char) : List Char :=
  let r := base.reverse
  let pre := r.takeWhile (fun c => c ≠ '.')
  if pre.length = base.length then []
  else if pre.length + 1 = base.length then []
  else '.' :: pre.reverse

end NodePath

/-! ## nx devkit path helpers -/

/-- Model of nx devkit `normalizePath`: every backslash becomes a forward
slash (the devkit implementation is `split('\x5c').join('/')`, a
character-wise substitution). -/
def normalizePath (s : String) : String :=
  String.mk (s.toList.map (fun c => if c = '\\' then '/' else c))

/-- Model of nx devkit `joinPathFragments`: `normalizePath` applied to
node `path.join` of the fragments. -/
def joinPathFragments (parts : List String) : String :=
  normalizePath (NodePath.join parts)

/-- Model of JavaScript `String.prototype.startsWith`: prefix test on the
character sequence. -/
def startsWithChars (s t : String) : Bool :=
  t.toList.isPrefixOf s.toList

/-- Model of JavaScript `String.prototype.endsWith`: suffix test on the
character sequence. -/
def endsWithChars (s t : String) : Bool :=
  t.toList.isSuffixOf s.toList

/-- Truthiness of a JavaScript `string | undefined` value: `undefined` and
the empty string are falsy, every other string is truthy. -/
def optTruthy : Option String → Bool
  | none => false
  | some s => s ≠ ""

/-- The resolved form of `target` lies inside the resolved form of `root`
(its segment list extends the root's segment list). This is the semantic
"does not escape the project root" notion the specification speaks about;
the source code instead tests `relative(...).startsWith('..')`. -/
def isInside (root target : String) : Bool :=
  (absSegs root).isPrefixOf (absSegs target)

/-- A path segment in normal form: nonempty and none of the special `.` or
`..` segments. -/
def cleanSeg (s : List Char) : Prop :=
  s ≠ [] ∧ s ≠ ['.'] ∧ s ≠ ['.', '.']

/-- The string holds no backslash character (it is already in the
forward-slash form shared by POSIX paths and the plugin's tokens). -/
def noBackslash (s : String) : Prop :=
  '\\' ∉ s.toList

instance (s : List Char) : Decidable (cleanSeg s) := by
  unfold cleanSeg
  infer_instance

instance (s : String) : Decidable (noBackslash s) := by
  unfold noBackslash
  infer_instance

/-! ## Plugin data model -/

/-- User-supplied plugin options (`PhpUnitPluginOptions`); both fields are
optional in the source, and JavaScript `??` treats a missing field and an
explicit `undefined` alike, so both are `none` here. -/
structure PhpUnitPluginOptions where
  targetName : Option String
  ciTargetName : Option String
deriving DecidableEq, Repr

/-- Options after `normalizeOptions` (`NormalizedOptions`); the source type
keeps `ciTargetName` optional even though `normalizeOptions` always fills
it, so it stays an `Option` here. -/
structure NormalizedOptions where
  targetName : String
  ciTargetName : Option String
deriving DecidableEq, Repr

/-- `<testsuite name=... directory=...>` element (`PhpUnitTestSuite`); the
source reads `directory` with a truthiness check, so an absent attribute is
`none`. -/
structure PhpUnitTestSuite where
  name : String
  directory : Option String
deriving DecidableEq, Repr

/-- `<testsuites>` element of the parsed configuration. -/
structure PhpUnitTestsuites where
  testsuite : PhpUnitTestSuite
deriving DecidableEq, Repr

/-- `<phpunit>` element of the parsed configuration. -/
structure PhpUnitPhpunit where
  testsuites : PhpUnitTestsuites
deriving DecidableEq, Repr

/-- `<coverage cacheDirectory=...>` element. -/
structure PhpUnitCoverage where
  cacheDirectory : Option String
deriving DecidableEq, Repr

/-- Parsed `phpunit.xml` (`PhpUnitConfiguration`): the root
`cacheResultFile` attribute, the `phpunit.testsuites.testsuite` element and
the optional `coverage` element (the source reads it as `coverage?.`). -/
structure PhpUnitConfiguration where
  cacheResultFile : Option String
  phpunit : PhpUnitPhpunit
  coverage : Option PhpUnitCoverage
deriving DecidableEq, Repr

/-- A `dependsOn` entry of the aggregator target: a target name plus the
fixed `projects: 'self'` / `params: 'forward'` policy. -/
structure DependsOnEntry where
  target : String
  projects : String
  params : String
deriving DecidableEq, Repr

/-- Display metadata of a target (`metadata` in `TargetConfiguration`). -/
structure TargetMetadata where
  technologies : List String
  description : String
  helpCommand : String
  helpExampleArgs : List String
  nonAtomizedTarget : Option String
deriving DecidableEq, Repr

/-- One target (`TargetConfiguration`): absent JavaScript fields are
`none` (`command`, `executor`, `dependsOn`, `metadata`, the `cwd` option)
or the falsy default (`cache`). -/
structure TargetConfiguration where
  command : Option String
  executor : Option String
  cwd : Option String
  cache : Bool
  inputs : List String
  outputs : List String
  parallelism : Bool
  dependsOn : Option (List DependsOnEntry)
  metadata : Option TargetMetadata
deriving DecidableEq, Repr

/-- Project-level metadata: the named target groups. -/
structure ProjectMetadata where
  targetGroups : List (String × List String)
deriving DecidableEq, Repr

/-- The `{targets, metadata}` pair produced per project (`PhpUnitTargets`).
Targets are an insertion-ordered name-to-target mapping, which is how a
JavaScript object records string keys. -/
structure PhpUnitTargets where
  targets : List (String × TargetConfiguration)
  metadata : Option ProjectMetadata
deriving DecidableEq, Repr

/-- The per-project descriptor placed into the `projects` result. -/
structure ProjectDescriptor where
  name : String
  root : String
  targets : List (String × TargetConfiguration)
  metadata : Option ProjectMetadata
deriving DecidableEq, Repr

/-- Result of one `createNodesInternal` call: a (possibly empty) mapping
from project root to descriptor. -/
structure CreateNodesResult where
  projects : List (String × ProjectDescriptor)
deriving DecidableEq, Repr

/-- Key of the memoization store, modelling the opaque
`calculateHashForCreateNodes` content hash by the arguments that vary
within a fixed workspace: the project root and the normalized options. -/
abbrev CacheKey := String × NormalizedOptions

/-- The in-memory memoization store (`Record<string, PhpUnitTargets>`). -/
abbrev TargetsCache := List (CacheKey × PhpUnitTargets)

/-- Pure model of the file system and workspace context consulted by the
plugin: `readdirSync` (`listDir`, `none` models the ENOENT throw for a
missing directory), the parsed `composer.json` name and `phpunit.xml`
configuration per path, `getFilesInDirectoryUsingContext` (`filesIn`), and
whether `getNamedInputs(projectRoot, context)` has a `production` entry. -/
structure Workspace where
  workspaceRoot : String
  workspaceDataDirectory : String
  listDir : String → Option (List String)
  composerName : String → String
  config : String → PhpUnitConfiguration
  filesIn : String → List String
  production : String → Bool

/-! ## Small helpers over the target mapping and the store -/

/-- Read a JavaScript-object mapping at a key. -/
def lookupTarget (ts : List (String × TargetConfiguration)) (k : String) : Option TargetConfiguration :=
  match ts with
  | [] => none
  | e :: rest => if e.1 = k then some e.2 else lookupTarget rest k

/-- JavaScript object assignment `obj[k] = v`: overwrite in place when the
key exists, append otherwise. -/
def upsert (ts : List (String × TargetConfiguration)) (k : String) (v : TargetConfiguration) : List (String × TargetConfiguration) :=
  match ts with
  | [] => [(k, v)]
  | e :: rest => if e.1 = k then (k, v) :: rest else e :: upsert rest k v

/-- Store lookup `targetsCache[hash]`. -/
def lookupCache (c : TargetsCache) (k : CacheKey) : Option PhpUnitTargets :=
  match c with
  | [] => none
  | e :: rest => if e.1 = k then some e.2 else lookupCache rest k

/-! ## Plugin functions (translated from the source) -/

/-- `normalizeOptions`: default the target name to `test` and the CI target
name to `test-ci`; JavaScript `??` only replaces a nullish value, so an
explicit empty string passes through. -/
def normalizeOptions (options : PhpUnitPluginOptions) : NormalizedOptions :=
  { targetName := options.targetName.getD "test"
    ciTargetName := some (options.ciTargetName.getD "test-ci") }

/-- `getTestOutput`: the root `cacheResultFile` attribute when truthy,
otherwise the default `.phpunit.cache/test-results`. -/
def getTestOutput (phpUnitConfig : PhpUnitConfiguration) : String :=
  if optTruthy phpUnitConfig.cacheResultFile then
    phpUnitConfig.cacheResultFile.getD ""
  else
    ".phpunit.cache/test-results"

/-- `getCoverageOutput`: `phpUnitConfig.coverage?.['@_cacheDirectory']`. -/
def getCoverageOutput (phpUnitConfig : PhpUnitConfiguration) : Option String :=
  phpUnitConfig.coverage.bind (fun c => c.cacheDirectory)

/-- `addSubfolderToOutput`: no-op for a falsy subfolder; when the output
has a file extension the subfolder is inserted before the file name,
otherwise it is appended as a new segment. -/
def addSubfolderToOutput (output : String) (subfolder : Option String) : String :=
  match subfolder with
  | none => output
  | some sf =>
    if sf = "" then output
    else
      let ocs := output.toList
      let base := NodePath.parseBase ocs
      if NodePath.parseExt base ≠ [] then
        NodePath.join [String.mk (NodePath.parseDir ocs), sf, String.mk base]
      else
        NodePath.join [output, sf]

/-- `normalizeOutput`: resolve the candidate against the project root; if
the project-relative form starts with `..` express it from the workspace
root, otherwise from the project root, in both cases through the
`{workspaceRoot}` / `{projectRoot}` tokens of `joinPathFragments`. -/
def normalizeOutput (path workspaceRoot projectRoot : String) : String :=
  let fullProjectRoot := NodePath.resolve workspaceRoot projectRoot
  let fullPath := NodePath.resolve fullProjectRoot path
  let pathRelativeToProjectRoot := normalizePath (NodePath.relative fullProjectRoot fullPath)
  if startsWithChars pathRelativeToProjectRoot ".." then
    joinPathFragments ["{workspaceRoot}", NodePath.relative workspaceRoot fullPath]
  else
    joinPathFragments ["{projectRoot}", pathRelativeToProjectRoot]

/-- `getTargetOutputs`: a deduplicated insertion-ordered set holding the
normalized, subfolder-adjusted test output, then the coverage output when
one is truthy. -/
def getTargetOutputs (testOutput : String) (coverageOutput : Option String)
    (workspaceRoot projectRoot : String) (subFolder : Option String) : List String :=
  let o1 := normalizeOutput (addSubfolderToOutput testOutput subFolder) workspaceRoot projectRoot
  if optTruthy coverageOutput then
    let o2 := normalizeOutput (addSubfolderToOutput (coverageOutput.getD "") subFolder) workspaceRoot projectRoot
    if o2 = o1 then [o1] else [o1, o2]
  else
    [o1]

/-- The per-file output subfolder: the project-relative path with path
separators and dots replaced by hyphens. The source applies
`replace(/[\x5c\x2f]/g, '-')` then `replace(/\./g, '-')`; composed, that
is a character-wise substitution. -/
def sanitizeSubfolder (s : String) : String :=
  String.mk (s.toList.map (fun c => if c = '/' ∨ c = '\\' ∨ c = '.' then '-' else c))

/-- The matcher `createMatcher('**/*Test.php')` built on minimatch: the
base name ends in `Test.php`, and no segment (minimatch's default dot
rule, for `**` and the leading `*` alike) starts with a dot. -/
def matchesTestFile (path : String) : Bool :=
  let segs := (splitOnChar '/' path.toList).map String.mk
  segs.all (fun s => !(startsWithChars s ".")) && endsWithChars (segs.getLastD "") "Test.php"

/-- The `./vendor/bin/phpunit --help` help block shared by every target's
metadata. -/
def phpunitHelpCommand : String := "./vendor/bin/phpunit --help"

/-- `baseTargetConfig` of `buildPhpUnitTargets`: the shared command, cwd,
parallelism and display metadata. -/
def baseTargetConfig : TargetConfiguration :=
  { command := some "./vendor/bin/phpunit"
    executor := none
    cwd := some "{projectRoot}"
    cache := false
    inputs := []
    outputs := []
    parallelism := false
    dependsOn := none
    metadata := some { technologies := ["php"]
                       description := "Runs PHPUnit Tests"
                       helpCommand := phpunitHelpCommand
                       helpExampleArgs := ["--colors"]
                       nonAtomizedTarget := none } }

/-- The `inputs` array of the cacheable targets:
`'production' in namedInputs ? ['default', '^production'] : ['default', '^default']`. -/
def defaultInputs (production : Bool) : List String :=
  if production then ["default", "^production"] else ["default", "^default"]

/-- Accumulator of the `forEachTestFile` loop: the targets built so far,
the `Test (CI)` group names, and the aggregator's `dependsOn` list. -/
abbrev CiAccum := List (String × TargetConfiguration) × List String × List DependsOnEntry

/-- Body of the `forEachTestFile` callback for one discovered test file:
derive the sanitized output subfolder and the normalized project-relative
path, register the per-file target, and extend the group and dependency
lists. -/
def ciStep (ciBaseTargetConfig : TargetConfiguration) (ciTargetName projectRoot : String)
    (testOutput : String) (coverageOutput : Option String) (workspaceRoot : String)
    (acc : CiAccum) (testFile : String) : CiAccum :=
  let outputSubfolder := sanitizeSubfolder (NodePath.relative projectRoot testFile)
  let relativeSpecFilePath := normalizePath (NodePath.relative projectRoot testFile)
  let targetName := ciTargetName ++ "--" ++ relativeSpecFilePath
  let perFileTarget : TargetConfiguration :=
    { ciBaseTargetConfig with
      outputs := getTargetOutputs testOutput coverageOutput workspaceRoot projectRoot (some outputSubfolder)
      command := some ("./vendor/bin/phpunit" ++ " " ++ relativeSpecFilePath)
      metadata := some { technologies := ["php"]
                         description := "Runs PHPUnit Tests in " ++ relativeSpecFilePath ++ " in CI"
                         helpCommand := phpunitHelpCommand
                         helpExampleArgs := ["--colors"]
                         nonAtomizedTarget := none } }
  (upsert acc.1 targetName perFileTarget,
   acc.2.1 ++ [targetName],
   acc.2.2 ++ [{ target := targetName, projects := "self", params := "forward" }])

/-- `buildPhpUnitTargets`: parse the configuration, build the base test
target, and when a truthy CI target name is configured discover the
`*Test.php` files of the test-suite directory, build one target per file,
and close with the `nx:noop` aggregator and the `Test (CI)` group. -/
def buildPhpUnitTargets (ws : Workspace) (configFilePath projectRoot : String)
    (options : NormalizedOptions) : PhpUnitTargets :=
  let phpUnitConfig := ws.config configFilePath
  let production := ws.production projectRoot
  let testOutput := getTestOutput phpUnitConfig
  let coverageOutput := getCoverageOutput phpUnitConfig
  let testTarget : TargetConfiguration :=
    { baseTargetConfig with
      cache := true
      inputs := defaultInputs production
      outputs := getTargetOutputs testOutput coverageOutput ws.workspaceRoot projectRoot none }
  let targets0 : List (String × TargetConfiguration) := [(options.targetName, testTarget)]
  if optTruthy options.ciTargetName then
    let ciTargetName := options.ciTargetName.getD ""
    let ciBaseTargetConfig : TargetConfiguration :=
      { baseTargetConfig with
        cache := true
        inputs := defaultInputs production
        outputs := getTargetOutputs testOutput coverageOutput ws.workspaceRoot projectRoot none }
    let dir := phpUnitConfig.phpunit.testsuites.testsuite.directory
    let testDir := if optTruthy dir then joinPathFragments [projectRoot, dir.getD ""] else projectRoot
    let files := (ws.filesIn testDir).filter (fun f => matchesTestFile f)
    let folded := files.foldl (ciStep ciBaseTargetConfig ciTargetName projectRoot testOutput coverageOutput ws.workspaceRoot) (targets0, [], [])
    let aggregator : TargetConfiguration :=
      { command := none
        executor := some "nx:noop"
        cwd := none
        cache := ciBaseTargetConfig.cache
        inputs := ciBaseTargetConfig.inputs
        outputs := ciBaseTargetConfig.outputs
        parallelism := false
        dependsOn := some folded.2.2
        metadata := some { technologies := ["php"]
                           description := "Runs PHPUnit Tests in CI"
                           helpCommand := phpunitHelpCommand
                           helpExampleArgs := ["--colors"]
                           nonAtomizedTarget := some options.targetName } }
    -- `targets[ciTargetName] ??= {}` followed by an unconditional
    -- assignment is, for the final object, a single assignment.
    { targets := upsert folded.1 ciTargetName aggregator
      metadata := some { targetGroups := [("Test (CI)", folded.2.1 ++ [ciTargetName])] } }
  else
    { targets := targets0, metadata := none }

/-- `createNodesInternal`: skip (empty mapping) when the project directory
lacks `composer.json`; otherwise consult the memoization store under the
content hash, build on a miss (`targetsCache[hash] ??= ...`), and wrap the
`{targets, metadata}` pair into the project descriptor named by the
composer manifest. A missing project directory makes `readdirSync` throw,
modelled by `listDir` returning `none`. -/
def createNodesInternal (ws : Workspace) (configFilePath : String)
    (options : PhpUnitPluginOptions) (targetsCache : TargetsCache) :
    Except String CreateNodesResult × TargetsCache :=
  let projectRoot := NodePath.dirname configFilePath
  match ws.listDir (NodePath.join [ws.workspaceRoot, projectRoot]) with
  | none => (Except.error ("ENOENT: " ++ projectRoot), targetsCache)
  | some siblingFiles =>
    if !(siblingFiles.contains "composer.json") then
      (Except.ok { projects := [] }, targetsCache)
    else
      let normalizedOptions := normalizeOptions options
      let composerName := ws.composerName projectRoot
      let hash : CacheKey := (projectRoot, normalizedOptions)
      match lookupCache targetsCache hash with
      | some cached =>
        (Except.ok { projects := [(projectRoot,
            { name := composerName, root := projectRoot,
              targets := cached.targets, metadata := cached.metadata })] },
         targetsCache)
      | none =>
        let built := buildPhpUnitTargets ws configFilePath projectRoot normalizedOptions
        (Except.ok { projects := [(projectRoot,
            { name := composerName, root := projectRoot,
              targets := built.targets, metadata := built.metadata })] },
         (hash, built) :: targetsCache)

/-- The per-file loop of `createNodesFromFiles`: process each
configuration file in order, threading the shared memoization store. -/
def processFiles (ws : Workspace) (files : List String)
    (options : PhpUnitPluginOptions) (cache : TargetsCache) :
    List (Except String CreateNodesResult) × TargetsCache :=
  match files with
  | [] => ([], cache)
  | f :: rest =>
    let step := createNodesInternal ws f options cache
    let restRun := processFiles ws rest options step.2
    (step.1 :: restRun.1, restRun.2)

/-! ## Batch entry point (`createNodesV2`) -/

/-- Model of `hashObject(options ?? {})` used only to key the on-disk store
file name: an injective textual encoding of the options object. -/
def hashObjectModel (options : PhpUnitPluginOptions) : String :=
  (match options.targetName with
   | some t => "t=" ++ t
   | none => "t?") ++ ";" ++
  (match options.ciTargetName with
   | some c => "c=" ++ c
   | none => "c?")

/-- `readTargetsCache`: the parsed on-disk store, or an empty store when
the file does not exist. -/
def readTargetsCache (diskStore : Option TargetsCache) : TargetsCache :=
  diskStore.getD []

/-- Observable effects of one batch invocation: the per-file processing
steps and the `writeTargetsToCache` disk write of the store. -/
inductive BatchEffect where
  | processFile : String → BatchEffect
  | writeStore : String → TargetsCache → BatchEffect
deriving DecidableEq, Repr

/-- `createNodesFromFiles` over `createNodesInternal`: run every file,
collect the successful `(file, result)` pairs, and fail with an
aggregate error when any file failed — after all files ran. -/
def createNodesFromFilesModel (ws : Workspace) (files : List String)
    (options : PhpUnitPluginOptions) (cache : TargetsCache) :
    Except String (List (String × CreateNodesResult)) × TargetsCache :=
  let run := processFiles ws files options cache
  let oks := (files.zip run.1).filterMap (fun fr =>
    match fr.2 with
    | Except.ok v => some (fr.1, v)
    | Except.error _ => none)
  let errs := run.1.filterMap (fun r =>
    match r with
    | Except.error e => some e
    | Except.ok _ => none)
  (match errs with
   | [] => Except.ok oks
   | _ :: _ => Except.error "AggregateCreateNodesError", run.2)

/-- `createNodesV2`: read the store from its options-keyed path, run
`createNodesFromFiles`, and — via `try`/`finally` — write the store back
exactly once after the per-file processing, whether it succeeded or threw.
The returned effect trace records the per-file processing steps followed
by the deferred `writeTargetsToCache`. -/
def createNodesV2 (ws : Workspace) (diskStore : Option TargetsCache)
    (configFilePaths : List String) (options : Option PhpUnitPluginOptions) :
    Except String (List (String × CreateNodesResult)) × List BatchEffect :=
  let opts := options.getD { targetName := none, ciTargetName := none }
  let cachePath := NodePath.join [ws.workspaceDataDirectory, "phpUnit-" ++ hashObjectModel opts ++ ".hash"]
  let targetsCache := readTargetsCache diskStore
  let run := createNodesFromFilesModel ws configFilePaths opts targetsCache
  (run.1, (configFilePaths.map BatchEffect.processFile) ++ [BatchEffect.writeStore cachePath run.2])

/-- The store is faithful for a run: any value it holds under the content
hash of a configuration file of the run equals what `buildPhpUnitTargets`
computes from scratch for that file. A store produced by a prior identical
run satisfies this. -/
def CacheFaithful (ws : Workspace) (files : List String)
    (options : PhpUnitPluginOptions) (c : TargetsCache) : Prop :=
  ∀ f ∈ files, ∀ v, lookupCache c (NodePath.dirname f, normalizeOptions options) = some v →
    v = buildPhpUnitTargets ws f (NodePath.dirname f) (normalizeOptions options)

/-- A configuration file reaches the memoized build step: its directory
listing exists and holds the `composer.json` manifest. -/
def ReachesBuild (ws : Workspace) (f : String) : Prop :=
  ∃ sibs, ws.listDir (NodePath.join [ws.workspaceRoot, NodePath.dirname f]) = some sibs ∧
    sibs.contains "composer.json" = true

/-! ## Concrete workspace fixtures (for witnesses and counterexamples) -/

/-- A configuration with no `cacheResultFile` and no `coverage` element,
and a `tests` test-suite directory. -/
def cfgPlain : PhpUnitConfiguration :=
  { cacheResultFile := none
    phpunit := { testsuites := { testsuite := { name := "unit", directory := some "tests" } } }
    coverage := none }

/-- `cfgPlain` with `cacheResultFile="custom/out.cache"`. -/
def cfgCustomCache : PhpUnitConfiguration :=
  { cfgPlain with cacheResultFile := some "custom/out.cache" }

/-- `cfgPlain` with a `coverage cacheDirectory="coverage"` element. -/
def cfgCoverage : PhpUnitConfiguration :=
  { cfgPlain with coverage := some { cacheDirectory := some "coverage" } }

/-- A configuration without a test-suite `directory` attribute, so test
discovery runs over the project root itself. -/
def cfgNoDir : PhpUnitConfiguration :=
  { cfgPlain with
    phpunit := { testsuites := { testsuite := { name := "unit", directory := none } } } }

/-- A one-project workspace: project `pkg` under `/ws`, with a manifest,
production named inputs, and no test files. -/
def wsPlain : Workspace :=
  { workspaceRoot := "/ws"
    workspaceDataDirectory := "/ws/.nx/workspace-data"
    listDir := fun _ => some ["composer.json", "phpunit.xml", "tests"]
    composerName := fun _ => "example/app"
    config := fun _ => cfgPlain
    filesIn := fun _ => []
    production := fun _ => true }

/-- `wsPlain` with the `custom/out.cache` cache-result file configured. -/
def wsCustomCache : Workspace :=
  { wsPlain with config := fun _ => cfgCustomCache }

/-- `wsPlain` with coverage configured and one discovered test file. -/
def wsCoverage1 : Workspace :=
  { wsPlain with
    config := fun _ => cfgCoverage
    filesIn := fun _ => ["pkg/tests/AlphaTest.php"] }

/-- `wsPlain` with coverage configured and two test files discovered under
the `pkg/tests` test-suite directory. -/
def wsCoverage2 : Workspace :=
  { wsPlain with
    config := fun _ => cfgCoverage
    filesIn := fun d =>
      if d = "pkg/tests" then ["pkg/tests/AlphaTest.php", "pkg/tests/sub/BetaTest.php"] else [] }

/-- A workspace whose project root holds two test files whose
project-relative paths differ only by a separator-versus-hyphen. -/
def wsCollide : Workspace :=
  { wsPlain with
    config := fun _ => cfgNoDir
    filesIn := fun _ => ["pkg/a/bTest.php", "pkg/a-bTest.php"] }

/-- `wsPlain` with a project directory that has no `composer.json`. -/
def wsNoManifest : Workspace :=
  { wsPlain with listDir := fun _ => some ["package.json", "phpunit.xml"] }

/-- Empty plugin options: both fields absent. -/
def optsNone : PhpUnitPluginOptions := { targetName := none, ciTargetName := none }

/-! ## Helper lemmas -/

/-- Assigning a key and reading it back yields the assigned target. -/
theorem lookupTarget_upsert (ts : List (String × TargetConfiguration)) (k : String) (v : TargetConfiguration) :
    lookupTarget (upsert ts k v) k = some v := by
  induction ts with
  | nil => simp [upsert, lookupTarget]
  | cons e rest ih =>
    by_cases h : e.1 = k
    · simp [upsert, lookupTarget, h]
    · simp [upsert, lookupTarget, h, ih]

/-! ## C10 — an empty `cacheResultFile` attribute falls back to the default -/

/-- C10: a present-but-empty `cacheResultFile` attribute yields the default
test output `.phpunit.cache/test-results`, exactly as when the attribute is
absent: `getTestOutput` tests truthiness, not presence. -/
theorem c10_empty_cacheResultFile_is_default (ph : PhpUnitPhpunit) (cov : Option PhpUnitCoverage) :
    getTestOutput { cacheResultFile := some "", phpunit := ph, coverage := cov } =
        ".phpunit.cache/test-results" ∧
      getTestOutput { cacheResultFile := some "", phpunit := ph, coverage := cov } =
        getTestOutput { cacheResultFile := none, phpunit := ph, coverage := cov } := by
  constructor <;> rfl

/-! ## C5 — configuration files without a sibling manifest are skipped -/

/-- C5: when the project directory listing exists but holds no
`composer.json`, `createNodesInternal` contributes no project — it returns
the empty mapping without an error and leaves the store untouched. -/
theorem c5_skip_without_manifest (ws : Workspace) (configFilePath : String)
    (options : PhpUnitPluginOptions) (cache : TargetsCache) (sibs : List String)
    (hdir : ws.listDir (NodePath.join [ws.workspaceRoot, NodePath.dirname configFilePath]) = some sibs)
    (hman : sibs.contains "composer.json" = false) :
    createNodesInternal ws configFilePath options cache = (Except.ok { projects := [] }, cache) := by
  have hnot : "composer.json" ∉ sibs := by simpa using hman
  simp [createNodesInternal, hdir, hnot]

/-- C5 witness: a concrete directory listing `["package.json",
"phpunit.xml"]` without `composer.json` is skipped. -/
theorem c5_skip_without_manifest_witness :
    createNodesInternal wsNoManifest "pkg/phpunit.xml" optsNone [] = (Except.ok { projects := [] }, []) :=
  c5_skip_without_manifest wsNoManifest "pkg/phpunit.xml" optsNone []
    ["package.json", "phpunit.xml"] rfl (by decide)

/-! ## C1 — which `ciTargetName` values disable CI target generation -/

/-- C1 counterexample: with `ciTargetName` absent (equivalently,
explicitly `undefined`), normalization defaults it to `test-ci` and target
building emits the `test-ci` aggregator (executor `nx:noop`) besides the
base `test` target — per-file CI target generation is not disabled. -/
theorem c1_absent_ciTargetName_counterexample :
    ((buildPhpUnitTargets wsPlain "pkg/phpunit.xml" "pkg" (normalizeOptions optsNone)).targets.map Prod.fst =
        ["test", "test-ci"]) ∧
      ((lookupTarget (buildPhpUnitTargets wsPlain "pkg/phpunit.xml" "pkg" (normalizeOptions optsNone)).targets
          "test-ci").map TargetConfiguration.executor = some (some "nx:noop")) := by
  constructor <;> rfl

/-- C1 amended: only a `ciTargetName` that normalizes to the empty string
disables per-file CI target generation — then only the base test target is
emitted and no target-group metadata is produced. (Absent or `undefined`
`ciTargetName` instead defaults to `test-ci` and enables generation.) -/
theorem c1_empty_ciTargetName_disables (ws : Workspace) (configFilePath projectRoot : String)
    (tn : Option String) :
    ((buildPhpUnitTargets ws configFilePath projectRoot
        (normalizeOptions { targetName := tn, ciTargetName := some "" })).targets.map Prod.fst =
      [(normalizeOptions { targetName := tn, ciTargetName := some "" }).targetName]) ∧
      (buildPhpUnitTargets ws configFilePath projectRoot
        (normalizeOptions { targetName := tn, ciTargetName := some "" })).metadata = none := by
  unfold buildPhpUnitTargets normalizeOptions
  simp [optTruthy]

/-! ## C2 — the single-target scenario for `cacheResultFile="custom/out.cache"` -/

/-- C2 counterexample: with `cacheResultFile="custom/out.cache"`, no
coverage and `ciTargetName` unset, the builder returns two targets —
`test` and the `test-ci` aggregator — not exactly one, because an unset
`ciTargetName` defaults to `test-ci`. -/
theorem c2_unset_ciTargetName_counterexample :
    (buildPhpUnitTargets wsCustomCache "pkg/phpunit.xml" "pkg" (normalizeOptions optsNone)).targets.map Prod.fst =
        ["test", "test-ci"] ∧
      (buildPhpUnitTargets wsCustomCache "pkg/phpunit.xml" "pkg" (normalizeOptions optsNone)).targets.map Prod.fst ≠
        ["test"] := by
  constructor <;> decide

/-- C2 amended: in the scenario `cacheResultFile="custom/out.cache"`, no
coverage element, and a `ciTargetName` that normalizes to the empty string
(the value that disables CI generation), the builder returns exactly one
target, named `test`, with outputs `["{projectRoot}/custom/out.cache"]`. -/
theorem c2_single_target_outputs (ws : Workspace)
    (hroot : ws.workspaceRoot = "/ws")
    (hcfg : ws.config "pkg/phpunit.xml" = cfgCustomCache) :
    ((buildPhpUnitTargets ws "pkg/phpunit.xml" "pkg"
        (normalizeOptions { targetName := none, ciTargetName := some "" })).targets.map Prod.fst =
      ["test"]) ∧
      ((lookupTarget (buildPhpUnitTargets ws "pkg/phpunit.xml" "pkg"
          (normalizeOptions { targetName := none, ciTargetName := some "" })).targets "test").map
        TargetConfiguration.outputs = some ["{projectRoot}/custom/out.cache"]) := by
  unfold buildPhpUnitTargets normalizeOptions
  rw [hroot, hcfg]
  simp [optTruthy, lookupTarget]
  decide

/-- C2 amended witness: the concrete workspace `wsCustomCache` satisfies
the scenario hypotheses. -/
theorem c2_single_target_outputs_witness :
    ((buildPhpUnitTargets wsCustomCache "pkg/phpunit.xml" "pkg"
        (normalizeOptions { targetName := none, ciTargetName := some "" })).targets.map Prod.fst =
      ["test"]) ∧
      ((lookupTarget (buildPhpUnitTargets wsCustomCache "pkg/phpunit.xml" "pkg"
          (normalizeOptions { targetName := none, ciTargetName := some "" })).targets "test").map
        TargetConfiguration.outputs = some ["{projectRoot}/custom/out.cache"]) :=
  c2_single_target_outputs wsCustomCache rfl rfl

/-! ## C9 — empty discovery still yields the aggregator and its group -/

/-- C9: with a truthy CI target name and no file matching the
`*Test.php` convention under the test-suite directory, the result still
holds the aggregator under `ciTargetName` with executor `nx:noop` and an
empty `dependsOn`, and the `Test (CI)` group lists exactly that name. -/
theorem c9_empty_discovery_aggregator (ws : Workspace) (configFilePath projectRoot : String)
    (options : NormalizedOptions)
    (hci : optTruthy options.ciTargetName = true)
    (hfiles : (ws.filesIn (if optTruthy (ws.config configFilePath).phpunit.testsuites.testsuite.directory
        then joinPathFragments [projectRoot, (ws.config configFilePath).phpunit.testsuites.testsuite.directory.getD ""]
        else projectRoot)).filter (fun f => matchesTestFile f) = []) :
    ((lookupTarget (buildPhpUnitTargets ws configFilePath projectRoot options).targets
        (options.ciTargetName.getD "")).map TargetConfiguration.executor = some (some "nx:noop")) ∧
      ((lookupTarget (buildPhpUnitTargets ws configFilePath projectRoot options).targets
        (options.ciTargetName.getD "")).map TargetConfiguration.dependsOn = some (some [])) ∧
      (buildPhpUnitTargets ws configFilePath projectRoot options).metadata =
        some { targetGroups := [("Test (CI)", [options.ciTargetName.getD ""])] } := by
  unfold buildPhpUnitTargets
  rw [hci]
  simp only [if_true, hfiles, List.foldl_nil]
  refine ⟨?_, ?_, ?_⟩ <;> simp [lookupTarget_upsert]

/-- C9 witness: the concrete workspace `wsPlain` (no files at all) with the
default normalized options. -/
theorem c9_empty_discovery_aggregator_witness :
    ((lookupTarget (buildPhpUnitTargets wsPlain "pkg/phpunit.xml" "pkg" (normalizeOptions optsNone)).targets
        ((normalizeOptions optsNone).ciTargetName.getD "")).map TargetConfiguration.executor =
      some (some "nx:noop")) ∧
      ((lookupTarget (buildPhpUnitTargets wsPlain "pkg/phpunit.xml" "pkg" (normalizeOptions optsNone)).targets
        ((normalizeOptions optsNone).ciTargetName.getD "")).map TargetConfiguration.dependsOn =
      some (some [])) ∧
      (buildPhpUnitTargets wsPlain "pkg/phpunit.xml" "pkg" (normalizeOptions optsNone)).metadata =
        some { targetGroups := [("Test (CI)", [(normalizeOptions optsNone).ciTargetName.getD ""])] } :=
  c9_empty_discovery_aggregator wsPlain "pkg/phpunit.xml" "pkg" (normalizeOptions optsNone) rfl rfl

/-! ## C6 — the store is persisted exactly once per batch -/

/-- Recognizer for the store-write effect. -/
def isWriteStore : BatchEffect → Bool
  | BatchEffect.writeStore _ _ => true
  | BatchEffect.processFile _ => false

/-- C6: every batch invocation's effect trace is the per-file processing
steps followed by exactly one store write — the write happens
unconditionally (the result may be an aggregate error or a success, the
trace is the same shape) and after all per-file processing. -/
theorem c6_store_persisted_once (ws : Workspace) (diskStore : Option TargetsCache)
    (configFilePaths : List String) (options : Option PhpUnitPluginOptions) :
    (∃ p c, (createNodesV2 ws diskStore configFilePaths options).2 =
        configFilePaths.map BatchEffect.processFile ++ [BatchEffect.writeStore p c]) ∧
      ((createNodesV2 ws diskStore configFilePaths options).2.filter isWriteStore).length = 1 := by
  constructor
  · exact ⟨_, _, rfl⟩
  · show (((configFilePaths.map BatchEffect.processFile) ++ [_]).filter isWriteStore).length = 1
    rw [List.filter_append]
    have h : (configFilePaths.map BatchEffect.processFile).filter isWriteStore = [] := by
      induction configFilePaths with
      | nil => rfl
      | cons f rest ih => simp [isWriteStore, ih]
    rw [h]
    rfl

/-! ## C8 — coverage outputs across the generated targets -/

/-- C8 counterexample: with coverage `cacheDirectory="coverage"` declared
and one discovered test file, the per-file CI target's outputs hold the
subfolder-adjusted coverage path, not the literal `{projectRoot}/coverage`
the claim requires of every generated target. -/
theorem c8_per_file_counterexample :
    ((lookupTarget (buildPhpUnitTargets wsCoverage1 "pkg/phpunit.xml" "pkg" (normalizeOptions optsNone)).targets
        "test-ci--tests/AlphaTest.php").map TargetConfiguration.outputs =
      some ["{projectRoot}/.phpunit.cache/test-results/tests-AlphaTest-php",
            "{projectRoot}/coverage/tests-AlphaTest-php"]) ∧
      "{projectRoot}/coverage" ∉
        ["{projectRoot}/.phpunit.cache/test-results/tests-AlphaTest-php",
         "{projectRoot}/coverage/tests-AlphaTest-php"] := by
  constructor
  · rfl
  · decide

/-- C8 amended: with coverage `cacheDirectory="coverage"` declared, the
base target and the aggregator list exactly the test output and
`{projectRoot}/coverage`; each per-file CI target lists the
subfolder-adjusted test and coverage paths instead; outputs are
deduplicated in general (`getTargetOutputs` never repeats an entry), and
when test and coverage outputs normalize to the same path the pair
collapses to a single entry. -/
theorem c8_coverage_outputs (ws : Workspace)
    (hroot : ws.workspaceRoot = "/ws")
    (hcfg : ws.config "pkg/phpunit.xml" = cfgCoverage)
    (hprod : ws.production "pkg" = true)
    (hfiles : ws.filesIn = fun d =>
      if d = "pkg/tests" then ["pkg/tests/AlphaTest.php", "pkg/tests/sub/BetaTest.php"] else []) :
    ((lookupTarget (buildPhpUnitTargets ws "pkg/phpunit.xml" "pkg" (normalizeOptions optsNone)).targets
        "test").map TargetConfiguration.outputs =
      some ["{projectRoot}/.phpunit.cache/test-results", "{projectRoot}/coverage"]) ∧
      ((lookupTarget (buildPhpUnitTargets ws "pkg/phpunit.xml" "pkg" (normalizeOptions optsNone)).targets
        "test-ci").map TargetConfiguration.outputs =
      some ["{projectRoot}/.phpunit.cache/test-results", "{projectRoot}/coverage"]) ∧
      ((lookupTarget (buildPhpUnitTargets ws "pkg/phpunit.xml" "pkg" (normalizeOptions optsNone)).targets
        "test-ci--tests/AlphaTest.php").map TargetConfiguration.outputs =
      some ["{projectRoot}/.phpunit.cache/test-results/tests-AlphaTest-php",
            "{projectRoot}/coverage/tests-AlphaTest-php"]) ∧
      ((lookupTarget (buildPhpUnitTargets ws "pkg/phpunit.xml" "pkg" (normalizeOptions optsNone)).targets
        "test-ci--tests/sub/BetaTest.php").map TargetConfiguration.outputs =
      some ["{projectRoot}/.phpunit.cache/test-results/tests-sub-BetaTest-php",
            "{projectRoot}/coverage/tests-sub-BetaTest-php"]) ∧
      (∀ (t : String) (c : Option String) (w p : String) (s : Option String),
        (getTargetOutputs t c w p s).Nodup) ∧
      getTargetOutputs "coverage" (some "coverage") "/ws" "pkg" none = ["{projectRoot}/coverage"] := by
  refine ⟨?_, ?_, ?_, ?_, ?_, ?_⟩
  case _ =>
    unfold buildPhpUnitTargets
    rw [hroot, hcfg, hprod, hfiles]
    decide
  case _ =>
    unfold buildPhpUnitTargets
    rw [hroot, hcfg, hprod, hfiles]
    decide
  case _ =>
    unfold buildPhpUnitTargets
    rw [hroot, hcfg, hprod, hfiles]
    decide
  case _ =>
    unfold buildPhpUnitTargets
    rw [hroot, hcfg, hprod, hfiles]
    decide
  case _ =>
    intro t c w p s
    unfold getTargetOutputs
    by_cases hc : optTruthy c = true
    · simp only [hc, if_true]
      split
      · exact List.nodup_singleton _
      · rename_i hne
        simp [hne]
        exact fun h => hne h.symm
  -- falsy coverage: singleton
    · simp [hc]
  case _ => decide

/-- C8 amended witness: the two-file concrete workspace `wsCoverage2`. -/
theorem c8_coverage_outputs_witness :
    ((lookupTarget (buildPhpUnitTargets wsCoverage2 "pkg/phpunit.xml" "pkg" (normalizeOptions optsNone)).targets
        "test").map TargetConfiguration.outputs =
      some ["{projectRoot}/.phpunit.cache/test-results", "{projectRoot}/coverage"]) ∧
      ((lookupTarget (buildPhpUnitTargets wsCoverage2 "pkg/phpunit.xml" "pkg" (normalizeOptions optsNone)).targets
        "test-ci").map TargetConfiguration.outputs =
      some ["{projectRoot}/.phpunit.cache/test-results", "{projectRoot}/coverage"]) ∧
      ((lookupTarget (buildPhpUnitTargets wsCoverage2 "pkg/phpunit.xml" "pkg" (normalizeOptions optsNone)).targets
        "test-ci--tests/AlphaTest.php").map TargetConfiguration.outputs =
      some ["{projectRoot}/.phpunit.cache/test-results/tests-AlphaTest-php",
            "{projectRoot}/coverage/tests-AlphaTest-php"]) ∧
      ((lookupTarget (buildPhpUnitTargets wsCoverage2 "pkg/phpunit.xml" "pkg" (normalizeOptions optsNone)).targets
        "test-ci--tests/sub/BetaTest.php").map TargetConfiguration.outputs =
      some ["{projectRoot}/.phpunit.cache/test-results/tests-sub-BetaTest-php",
            "{projectRoot}/coverage/tests-sub-BetaTest-php"]) ∧
      (∀ (t : String) (c : Option String) (w p : String) (s : Option String),
        (getTargetOutputs t c w p s).Nodup) ∧
      getTargetOutputs "coverage" (some "coverage") "/ws" "pkg" none = ["{projectRoot}/coverage"] :=
  c8_coverage_outputs wsCoverage2 rfl rfl rfl rfl

/-! ## C7 — the sanitized subfolder map is not injective -/

/-- The character substitution inside `sanitizeSubfolder`. -/
def sanitizeChar (c : Char) : Char :=
  if c = '/' ∨ c = '\\' ∨ c = '.' then '-' else c

/-- Characters identified by the sanitization: the replaced class plus the
replacement character itself. -/
def collapsibleChar (c : Char) : Bool :=
  c = '/' ∨ c = '\\' ∨ c = '.' ∨ c = '-'

/-- `sanitizeSubfolder` is the character-wise map of `sanitizeChar`. -/
theorem sanitizeSubfolder_eq_map (s : String) :
    sanitizeSubfolder s = String.mk (s.toList.map sanitizeChar) := rfl

/-- Two characters sanitize identically exactly when they are equal or both
belong to the collapsed class. -/
theorem sanitizeChar_eq_iff (a b : Char) :
    sanitizeChar a = sanitizeChar b ↔ (a = b ∨ (collapsibleChar a = true ∧ collapsibleChar b = true)) := by
  simp only [sanitizeChar, collapsibleChar, decide_eq_true_eq]
  by_cases ha : a = '/' ∨ a = '\\' ∨ a = '.'
  · by_cases hb : b = '/' ∨ b = '\\' ∨ b = '.'
    · simp only [if_pos ha, if_pos hb]
      constructor
      · intro _
        exact Or.inr ⟨by tauto, by tauto⟩
      · intro _
        trivial
    · simp only [if_pos ha, if_neg hb]
      constructor
      · intro h
        exact Or.inr ⟨by tauto, Or.inr (Or.inr (Or.inr h.symm))⟩
      · intro h
        rcases h with h | ⟨h1, h2⟩
        · exact absurd (h ▸ ha) hb
        · rcases h2 with h2 | h2 | h2 | h2
          · exact absurd (Or.inl h2) hb
          · exact absurd (Or.inr (Or.inl h2)) hb
          · exact absurd (Or.inr (Or.inr h2)) hb
          · exact h2.symm
  · by_cases hb : b = '/' ∨ b = '\\' ∨ b = '.'
    · simp only [if_neg ha, if_pos hb]
      constructor
      · intro h
        exact Or.inr ⟨Or.inr (Or.inr (Or.inr h)), by tauto⟩
      · intro h
        rcases h with h | ⟨h1, h2⟩
        · exact absurd (h ▸ hb) ha
        · rcases h1 with h1 | h1 | h1 | h1
          · exact absurd (Or.inl h1) ha
          · exact absurd (Or.inr (Or.inl h1)) ha
          · exact absurd (Or.inr (Or.inr h1)) ha
          · exact h1
    · simp only [if_neg ha, if_neg hb]
      constructor
      · intro h
        exact Or.inl h
      · intro h
        rcases h with h | ⟨h1, h2⟩
        · exact h
        · rcases h1 with h1 | h1 | h1 | h1
          · exact absurd (Or.inl h1) ha
          · exact absurd (Or.inr (Or.inl h1)) ha
          · exact absurd (Or.inr (Or.inr h1)) ha
          · rcases h2 with h2 | h2 | h2 | h2
            · exact absurd (Or.inl h2) hb
            · exact absurd (Or.inr (Or.inl h2)) hb
            · exact absurd (Or.inr (Or.inr h2)) hb
            · exact h1.trans h2.symm

/-- Mapping a function over two lists yields equal results exactly when the
lists are pointwise related by equality-after-`f`. -/
theorem map_eq_map_iff_forall2 {α β : Type} (f : α → β) :
    ∀ (xs ys : List α), xs.map f = ys.map f ↔ List.Forall₂ (fun a b => f a = f b) xs ys := by
  intro xs
  induction xs with
  | nil =>
    intro ys
    cases ys <;> simp
  | cons x xs ih =>
    intro ys
    cases ys with
    | nil => simp
    | cons y ys => simp [ih ys]

/-- C7 counterexample: the distinct discovered test files `pkg/a/bTest.php`
and `pkg/a-bTest.php` (both matching the `*Test.php` convention, with
distinct project-relative paths) sanitize to the same subfolder token, and
in the resulting build the two per-file CI targets carry identical outputs
lists — they overwrite each other. -/
theorem c7_collision_counterexample :
    NodePath.relative "pkg" "pkg/a/bTest.php" ≠ NodePath.relative "pkg" "pkg/a-bTest.php" ∧
      matchesTestFile "pkg/a/bTest.php" = true ∧
      matchesTestFile "pkg/a-bTest.php" = true ∧
      sanitizeSubfolder (NodePath.relative "pkg" "pkg/a/bTest.php") =
        sanitizeSubfolder (NodePath.relative "pkg" "pkg/a-bTest.php") ∧
      ((lookupTarget (buildPhpUnitTargets wsCollide "pkg/phpunit.xml" "pkg" (normalizeOptions optsNone)).targets
          "test-ci--a/bTest.php").map TargetConfiguration.outputs =
        some ["{projectRoot}/.phpunit.cache/test-results/a-bTest-php"]) ∧
      ((lookupTarget (buildPhpUnitTargets wsCollide "pkg/phpunit.xml" "pkg" (normalizeOptions optsNone)).targets
          "test-ci--a-bTest.php").map TargetConfiguration.outputs =
        some ["{projectRoot}/.phpunit.cache/test-results/a-bTest-php"]) := by
  refine ⟨by decide, by decide, by decide, by decide, ?_, ?_⟩ <;> rfl

/-- C7 amended: the sanitization map is not injective over project-relative
test-file paths; two paths sanitize to the same subfolder token exactly
when they agree pointwise up to the collapsed character class
`{'/', '\x5c', '.', '-'}` — so distinctness of the tokens (and hence
non-overwriting outputs) is guaranteed only for test files that differ at
some position outside that class. -/
theorem c7_sanitize_collision_characterization (p q : String) :
    sanitizeSubfolder p = sanitizeSubfolder q ↔
      List.Forall₂ (fun a b => a = b ∨ (collapsibleChar a = true ∧ collapsibleChar b = true))
        p.toList q.toList := by
  constructor
  · intro h
    have h2 : p.toList.map sanitizeChar = q.toList.map sanitizeChar := congrArg String.data h
    exact List.Forall₂.imp (fun a b hab => (sanitizeChar_eq_iff a b).mp hab)
      ((map_eq_map_iff_forall2 sanitizeChar p.toList q.toList).mp h2)
  · intro h
    have h2 : p.toList.map sanitizeChar = q.toList.map sanitizeChar :=
      (map_eq_map_iff_forall2 sanitizeChar p.toList q.toList).mpr
        (List.Forall₂.imp (fun a b hab => (sanitizeChar_eq_iff a b).mpr hab) h)
    exact congrArg String.mk h2

/-! ## Path lemmas for the output-locality claim -/

/-- `String.toList` of a constructed string is its character list. -/
theorem toList_mk (l : List Char) : (String.mk l).toList = l := rfl

/-- A separator never occurs inside a piece produced by `splitOnChar`. -/
theorem mem_splitOnChar_no_sep (sep : Char) :
    ∀ (cs s : List Char), s ∈ splitOnChar sep cs → sep ∉ s := by
  intro cs
  induction cs with
  | nil =>
    intro s hs
    simp only [splitOnChar, List.mem_singleton] at hs
    subst hs
    simp
  | cons c cs ih =>
    intro s hs
    simp only [splitOnChar] at hs
    by_cases hc : c = sep
    · rw [if_pos hc] at hs
      rcases List.mem_cons.mp hs with rfl | h2
      · simp
      · exact ih s h2
    · rw [if_neg hc] at hs
      cases hr : splitOnChar sep cs with
      | nil => exact absurd hr (by
          have := ih
          cases cs with
          | nil => simp [splitOnChar]
          | cons d ds =>
            simp only [splitOnChar]
            split
            · simp
            · split <;> simp)
      | cons s0 rest =>
        rw [hr] at hs
        rcases List.mem_cons.mp hs with rfl | h2
        · intro hmem
          rcases List.mem_cons.mp hmem with h3 | h3
          · exact hc h3.symm
          · exact ih s0 (by rw [hr]; exact List.mem_cons_self s0 rest) h3
        · exact ih s (by rw [hr]; exact List.mem_cons_of_mem s0 h2)

/-- Every character of a `splitOnChar` piece occurs in the split list. -/
theorem mem_splitOnChar_subset (sep : Char) :
    ∀ (cs s : List Char), s ∈ splitOnChar sep cs → ∀ c ∈ s, c ∈ cs := by
  intro cs
  induction cs with
  | nil =>
    intro s hs
    simp only [splitOnChar, List.mem_singleton] at hs
    subst hs
    simp
  | cons c cs ih =>
    intro s hs d hd
    simp only [splitOnChar] at hs
    by_cases hc : c = sep
    · rw [if_pos hc] at hs
      rcases List.mem_cons.mp hs with rfl | h2
      · cases hd
      · exact List.mem_cons_of_mem c (ih s h2 d hd)
    · rw [if_neg hc] at hs
      cases hr : splitOnChar sep cs with
      | nil =>
        rw [hr] at hs
        rcases List.mem_singleton.mp hs with rfl
        rcases List.mem_singleton.mp hd with rfl
        exact List.mem_cons_self d cs
      | cons s0 rest =>
        rw [hr] at hs
        rcases List.mem_cons.mp hs with rfl | h2
        · rcases List.mem_cons.mp hd with rfl | h3
          · exact List.mem_cons_self d cs
          · exact List.mem_cons_of_mem c
              (ih s0 (by rw [hr]; exact List.mem_cons_self s0 rest) d h3)
        · exact List.mem_cons_of_mem c
            (ih s (by rw [hr]; exact List.mem_cons_of_mem s0 h2) d hd)

/-- Splitting a list whose head part is separator-free peels off exactly
that part. -/
theorem splitOnChar_append (sep : Char) :
    ∀ (a b : List Char), sep ∉ a → splitOnChar sep (a ++ sep :: b) = a :: splitOnChar sep b := by
  intro a
  induction a with
  | nil =>
    intro b _
    simp [splitOnChar]
  | cons c a ih =>
    intro b ha
    have hc : ¬ c = sep := fun h => ha (by rw [h]; exact List.mem_cons_self sep a)
    have ha2 : sep ∉ a := fun h => ha (List.mem_cons_of_mem c h)
    have hstep : splitOnChar sep (c :: (a ++ sep :: b)) =
        match splitOnChar sep (a ++ sep :: b) with
        | s :: rest => (c :: s) :: rest
        | [] => [[c]] := by
      simp only [splitOnChar, if_neg hc]
    rw [List.cons_append, hstep, ih b ha2]

/-- Splitting a separator-free list yields that single piece. -/
theorem splitOnChar_no_sep (sep : Char) :
    ∀ (a : List Char), sep ∉ a → splitOnChar sep a = [a] := by
  intro a
  induction a with
  | nil => intro _; rfl
  | cons c a ih =>
    intro ha
    have hc : ¬ c = sep := fun h => ha (by rw [h]; exact List.mem_cons_self sep a)
    have ha2 : sep ∉ a := fun h => ha (List.mem_cons_of_mem c h)
    simp only [splitOnChar, ih ha2, if_neg hc]

/-- `splitOnChar` is a left inverse of `joinSegs` on nonempty lists of
separator-free segments. -/
theorem splitOnChar_joinSegs (sep : Char) :
    ∀ (ls : List (List Char)), ls ≠ [] → (∀ l ∈ ls, sep ∉ l) →
      splitOnChar sep (joinSegs sep ls) = ls := by
  intro ls
  induction ls with
  | nil => intro h _; cases h rfl
  | cons s tail ih =>
    intro _ hl
    cases tail with
    | nil => exact splitOnChar_no_sep sep s (hl s (List.mem_cons_self s []))
    | cons s2 rest =>
      have hjoin : joinSegs sep (s :: s2 :: rest) = s ++ sep :: joinSegs sep (s2 :: rest) := rfl
      rw [hjoin, splitOnChar_append sep s _ (hl s (List.mem_cons_self s (s2 :: rest))),
        ih (by simp) (fun l h => hl l (List.mem_cons_of_mem s h))]

/-- A clean segment is pushed unchanged by the normalization step. -/
theorem normStep_push (abs : Bool) (acc : List (List Char)) (s : List Char) (h : cleanSeg s) :
    normStep abs acc s = s :: acc := by
  rcases h with ⟨h1, h2, h3⟩
  unfold normStep
  rw [if_neg (fun hh => hh.elim h1 h2), if_neg h3]

/-- Folding the normalization step over clean segments only reverses. -/
theorem foldl_normStep_clean (abs : Bool) :
    ∀ (l acc : List (List Char)), (∀ s ∈ l, cleanSeg s) →
      l.foldl (normStep abs) acc = l.reverse ++ acc := by
  intro l
  induction l with
  | nil => intro acc _; simp
  | cons x xs ih =>
    intro acc h
    rw [List.foldl_cons, normStep_push abs acc x (h x (List.mem_cons_self x xs)),
      ih (x :: acc) (fun s hs => h s (List.mem_cons_of_mem x hs))]
    simp

/-- Normalization is the identity on clean segment lists. -/
theorem normSegs_clean (abs : Bool) (l : List (List Char)) (h : ∀ s ∈ l, cleanSeg s) :
    normSegs abs l = l := by
  unfold normSegs
  rw [foldl_normStep_clean abs l [] h]
  simp

/-- A segment surviving one normalization step came from the stack or is
the new segment. -/
theorem mem_normStep (abs : Bool) (acc : List (List Char)) (x s : List Char)
    (h : s ∈ normStep abs acc x) : s ∈ acc ∨ s = x := by
  unfold normStep at h
  split at h
  · exact Or.inl h
  · split at h
    · rename_i hx
      split at h
      · split at h
        · cases h
        · simp only [List.mem_singleton] at h
          exact Or.inr (h.trans hx.symm)
      · split at h
        · rcases List.mem_cons.mp h with rfl | h3
          · exact Or.inr rfl
          · exact Or.inl h3
        · exact Or.inl (List.mem_cons_of_mem _ h)
    · rcases List.mem_cons.mp h with rfl | h3
      · exact Or.inr rfl
      · exact Or.inl h3

/-- A segment of the folded normalization came from the stack or the
input. -/
theorem mem_foldl_normStep (abs : Bool) :
    ∀ (l acc : List (List Char)) (s : List Char),
      s ∈ l.foldl (normStep abs) acc → s ∈ acc ∨ s ∈ l := by
  intro l
  induction l with
  | nil => intro acc s h; exact Or.inl h
  | cons x xs ih =>
    intro acc s h
    rcases ih (normStep abs acc x) s h with h2 | h2
    · rcases mem_normStep abs acc x s h2 with h3 | h3
      · exact Or.inl h3
      · exact Or.inr (h3 ▸ List.mem_cons_self x xs)
    · exact Or.inr (List.mem_cons_of_mem x h2)

/-- Segments of a normalized list come from the input list. -/
theorem mem_normSegs (abs : Bool) (l : List (List Char)) (s : List Char)
    (h : s ∈ normSegs abs l) : s ∈ l := by
  unfold normSegs at h
  rw [List.mem_reverse] at h
  rcases mem_foldl_normStep abs l [] s h with h2 | h2
  · cases h2
  · exact h2

/-- In absolute mode the normalization step preserves cleanliness of the
stack. -/
theorem clean_normStep_true (acc : List (List Char)) (x s : List Char)
    (hacc : ∀ t ∈ acc, cleanSeg t) (h : s ∈ normStep true acc x) : cleanSeg s := by
  unfold normStep at h
  split at h
  · exact hacc s h
  · split at h
    · split at h
      · split at h
        · cases h
        · rename_i habs
          exact absurd rfl habs
      · split at h
        · rename_i a rest ha
          exact absurd ha (hacc a (List.mem_cons_self a rest)).2.2
        · rename_i a rest _
          exact hacc s (List.mem_cons_of_mem a h)
    · rename_i h1 h2
      rcases List.mem_cons.mp h with rfl | h3
      · exact ⟨fun hh => h1 (Or.inl hh), fun hh => h1 (Or.inr hh), h2⟩
      · exact hacc s h3

/-- In absolute mode every segment left by the fold is clean. -/
theorem clean_foldl_normStep :
    ∀ (l acc : List (List Char)), (∀ t ∈ acc, cleanSeg t) →
      ∀ s ∈ l.foldl (normStep true) acc, cleanSeg s := by
  intro l
  induction l with
  | nil => intro acc hacc s h; exact hacc s h
  | cons x xs ih =>
    intro acc hacc s h
    exact ih (normStep true acc x) (fun t ht => clean_normStep_true acc x t hacc ht) s h

/-- Absolute normalization yields only clean segments. -/
theorem clean_normSegs_true (l : List (List Char)) (s : List Char)
    (h : s ∈ normSegs true l) : cleanSeg s := by
  unfold normSegs at h
  rw [List.mem_reverse] at h
  exact clean_foldl_normStep l [] (by intro t ht; cases ht) s h

/-- Segments of `absSegs` are clean, separator-free, and drawn from the
source string's characters. -/
theorem mem_absSegs (str : String) (s : List Char) (h : s ∈ absSegs str) :
    cleanSeg s ∧ '/' ∉ s ∧ (∀ c ∈ s, c ∈ str.toList) := by
  refine ⟨clean_normSegs_true _ s h, ?_, ?_⟩
  · exact mem_splitOnChar_no_sep '/' str.toList s (mem_normSegs true _ s h)
  · exact mem_splitOnChar_subset '/' str.toList s (mem_normSegs true _ s h)

/-- The right remainder of `dropShared` is a subset of the right input. -/
theorem dropShared_right_subset :
    ∀ (a b : List (List Char)), ∀ s ∈ (dropShared a b).2, s ∈ b := by
  intro a
  induction a with
  | nil => intro b s h; exact h
  | cons x xs ih =>
    intro b s h
    cases b with
    | nil => exact h
    | cons y ys =>
      by_cases hxy : x = y
      · unfold dropShared at h
        rw [if_pos hxy] at h
        exact List.mem_cons_of_mem y (ih ys s h)
      · unfold dropShared at h
        rw [if_neg hxy] at h
        exact h

/-- The left remainder of `dropShared` is empty exactly when the left
input is a prefix of the right one. -/
theorem dropShared_nil_iff :
    ∀ (a b : List (List Char)), (dropShared a b).1 = [] ↔ a.isPrefixOf b = true := by
  intro a
  induction a with
  | nil => intro b; simp [dropShared, List.isPrefixOf]
  | cons x xs ih =>
    intro b
    cases b with
    | nil => simp [dropShared, List.isPrefixOf]
    | cons y ys =>
      by_cases hxy : x = y
      · subst hxy
        simp [dropShared, List.isPrefixOf, ih ys]
      · simp [dropShared, if_neg hxy, List.isPrefixOf, hxy]

/-- `joinSegs` of a cons starts with the head segment. -/
theorem joinSegs_cons_append (sep : Char) (s : List Char) (l : List (List Char)) :
    ∃ r, joinSegs sep (s :: l) = s ++ r := by
  cases l with
  | nil => exact ⟨[], by simp [joinSegs]⟩
  | cons t rest => exact ⟨sep :: joinSegs sep (t :: rest), rfl⟩

/-- Characters of a `joinSegs` are separators or segment characters. -/
theorem mem_joinSegs (sep : Char) :
    ∀ (ls : List (List Char)) (c : Char), c ∈ joinSegs sep ls → c = sep ∨ ∃ s ∈ ls, c ∈ s := by
  intro ls
  induction ls with
  | nil => intro c h; cases h
  | cons s tail ih =>
    intro c h
    cases tail with
    | nil => exact Or.inr ⟨s, List.mem_cons_self s [], h⟩
    | cons t rest =>
      rcases List.mem_append.mp h with h2 | h2
      · exact Or.inr ⟨s, List.mem_cons_self s (t :: rest), h2⟩
      · rcases List.mem_cons.mp h2 with rfl | h3
        · exact Or.inl rfl
        · rcases ih c h3 with h4 | ⟨u, hu, hc⟩
          · exact Or.inl h4
          · exact Or.inr ⟨u, List.mem_cons_of_mem s hu, hc⟩

/-- Boolean prefix test, unfolded to an existential. -/
theorem isPrefixOf_iff_exists :
    ∀ (a b : List Char), a.isPrefixOf b = true ↔ ∃ r, b = a ++ r := by
  intro a
  induction a with
  | nil => intro b; simp [List.isPrefixOf]
  | cons x xs ih =>
    intro b
    cases b with
    | nil => simp [List.isPrefixOf]
    | cons y ys =>
      simp only [List.isPrefixOf, Bool.and_eq_true, beq_iff_eq, ih ys]
      constructor
      · rintro ⟨rfl, r, rfl⟩
        exact ⟨r, rfl⟩
      · rintro ⟨r, h⟩
        injection h with h1 h2
        exact ⟨h1.symm, r, h2⟩

/-- A list maps to itself under a function fixing each of its members. -/
theorem map_id_of_fixes {α : Type} (f : α → α) :
    ∀ (l : List α), (∀ c ∈ l, f c = c) → l.map f = l := by
  intro l
  induction l with
  | nil => intro _; rfl
  | cons x xs ih =>
    intro h
    simp only [List.map_cons, h x (List.mem_cons_self x xs),
      ih (fun c hc => h c (List.mem_cons_of_mem x hc))]

/-- `joinPathFragments` output never contains a backslash. -/
theorem noBackslash_joinPathFragments (parts : List String) :
    ∀ c ∈ (joinPathFragments parts).toList, c ≠ '\\' := by
  intro c hc
  unfold joinPathFragments normalizePath at hc
  rw [toList_mk] at hc
  rcases List.mem_map.mp hc with ⟨d, _, hfd⟩
  subst hfd
  by_cases h : d = '\\'
  · rw [if_pos h]
    decide
  · rw [if_neg h]
    exact h

/-- `normalizePath` is the identity on backslash-free strings. -/
theorem normalizePath_id (s : String) (h : ∀ c ∈ s.toList, c ≠ '\\') : normalizePath s = s := by
  unfold normalizePath
  rw [map_id_of_fixes _ s.toList (fun c hc => if_neg (h c hc))]
  rfl

/-- Characters of the absolute normalized form come from the input. -/
theorem mem_absChars (cs : List Char) (c : Char)
    (h : c ∈ '/' :: joinSegs '/' (normSegs true (splitOnChar '/' cs))) : c = '/' ∨ c ∈ cs := by
  rcases List.mem_cons.mp h with rfl | h2
  · exact Or.inl rfl
  · rcases mem_joinSegs '/' _ c h2 with h3 | ⟨s, hs, hc⟩
    · exact Or.inl h3
    · exact Or.inr (mem_splitOnChar_subset '/' cs s (mem_normSegs true _ s hs) c hc)

/-- Characters of a resolved path come from its two inputs (or are the
separator). -/
theorem mem_resolve (base cand : String) (c : Char)
    (h : c ∈ (NodePath.resolve base cand).toList) :
    c = '/' ∨ c ∈ base.toList ∨ c ∈ cand.toList := by
  by_cases hstart : cand.toList.head? = some '/'
  · have h2 : c ∈ '/' :: joinSegs '/' (normSegs true (splitOnChar '/' cand.toList)) := by
      unfold NodePath.resolve at h
      rw [toList_mk] at h
      rwa [if_pos hstart] at h
    rcases mem_absChars _ c h2 with h3 | h3
    · exact Or.inl h3
    · exact Or.inr (Or.inr h3)
  · have h2 : c ∈ '/' :: joinSegs '/'
        (normSegs true (splitOnChar '/' (base.toList ++ '/' :: cand.toList))) := by
      unfold NodePath.resolve at h
      rw [toList_mk] at h
      rwa [if_neg hstart] at h
    rcases mem_absChars _ c h2 with h3 | h3
    · exact Or.inl h3
    · rcases List.mem_append.mp h3 with h4 | h4
      · exact Or.inr (Or.inl h4)
      · rcases List.mem_cons.mp h4 with rfl | h5
        · exact Or.inl rfl
        · exact Or.inr (Or.inr h5)

/-- Resolution preserves backslash-freeness. -/
theorem noBackslash_resolve (base cand : String)
    (hb : noBackslash base) (hc : noBackslash cand) : noBackslash (NodePath.resolve base cand) := by
  intro h
  rcases mem_resolve base cand '\\' h with h2 | h2 | h2
  · cases h2
  · exact hb h2
  · exact hc h2

/-- `relative` written through its segment decomposition. -/
theorem relative_structure (f t : String) :
    NodePath.relative f t = String.mk (joinSegs '/'
      ((dropShared (absSegs f) (absSegs t)).1.map (fun _ => ['.', '.']) ++
        (dropShared (absSegs f) (absSegs t)).2)) := rfl

/-- Characters of `relative` are separators, dots, or characters of the
target path. -/
theorem mem_relative (f t : String) (c : Char) (h : c ∈ (NodePath.relative f t).toList) :
    c = '/' ∨ c = '.' ∨ c ∈ t.toList := by
  rw [relative_structure, toList_mk] at h
  rcases mem_joinSegs '/' _ c h with h2 | ⟨s, hs, hc⟩
  · exact Or.inl h2
  · rcases List.mem_append.mp hs with h3 | h3
    · rcases List.mem_map.mp h3 with ⟨_, _, rfl⟩
      rcases List.mem_cons.mp hc with rfl | h4
      · exact Or.inr (Or.inl rfl)
      · rcases List.mem_singleton.mp h4 with rfl
        exact Or.inr (Or.inl rfl)
    · exact Or.inr (Or.inr
        ((mem_absSegs t s (dropShared_right_subset (absSegs f) (absSegs t) s h3)).2.2 c hc))

/-- `relative` preserves backslash-freeness of the target. -/
theorem noBackslash_relative (f t : String) (ht : noBackslash t) :
    ∀ c ∈ (NodePath.relative f t).toList, c ≠ '\\' := by
  intro c hc hcontra
  subst hcontra
  rcases mem_relative f t '\\' hc with h | h | h
  · cases h
  · cases h
  · exact ht h

/-- When the shared-prefix drop leaves something of the left path, the
relative form starts with `..`. -/
theorem startsWith_dotdot_of_ups (f t : String)
    (h : (dropShared (absSegs f) (absSegs t)).1 ≠ []) :
    startsWithChars (NodePath.relative f t) ".." = true := by
  obtain ⟨x, xs, hx⟩ : ∃ x xs, (dropShared (absSegs f) (absSegs t)).1 = x :: xs := by
    cases hh : (dropShared (absSegs f) (absSegs t)).1 with
    | nil => exact absurd hh h
    | cons x xs => exact ⟨x, xs, rfl⟩
  obtain ⟨r, hr⟩ := joinSegs_cons_append '/' ['.', '.']
    ((xs.map (fun _ => ['.', '.'])) ++ (dropShared (absSegs f) (absSegs t)).2)
  unfold startsWithChars
  rw [relative_structure, toList_mk, hx, List.map_cons, List.cons_append, hr]
  exact (isPrefixOf_iff_exists _ _).mpr ⟨r, rfl⟩

/-- Conversely, a relative form that does not start with `..` has an empty
left remainder. -/
theorem ups_nil_of_not_startsWith (f t : String)
    (h : startsWithChars (NodePath.relative f t) ".." = false) :
    (dropShared (absSegs f) (absSegs t)).1 = [] := by
  by_contra h2
  rw [startsWith_dotdot_of_ups f t h2] at h
  cases h

/-- Filtering the empty string out of a pair of nonempty strings keeps
both. -/
theorem filter_pair_ne (a b : String) (ha : a ≠ "") (hb : b ≠ "") :
    [a, b].filter (fun p => p ≠ "") = [a, b] := by
  simp [ha, hb]

/-- Filtering the empty string out of a pair whose second member is empty
keeps the first. -/
theorem filter_pair_right_empty (a : String) (ha : a ≠ "") :
    [a, ""].filter (fun p => p ≠ "") = [a] := by
  simp [ha]

/-- Joining a token in front of a (possibly empty) clean segment list via
`joinPathFragments` yields a string that starts with the token: the
normalization inside `path.join` does not disturb a clean, dot-free
segment sequence. -/
theorem joinPathFragments_token (tok : String) (segs : List (List Char))
    (htok2 : cleanSeg tok.toList) (htok3 : '/' ∉ tok.toList)
    (htok4 : '\\' ∉ tok.toList) (htok5 : ¬ tok.toList.head? = some '/')
    (hsegs : ∀ s ∈ segs, cleanSeg s ∧ '/' ∉ s ∧ '\\' ∉ s) :
    startsWithChars (joinPathFragments [tok, String.mk (joinSegs '/' segs)]) tok = true := by
  have htokne : tok ≠ "" := fun hh => htok2.1 (by rw [hh]; rfl)
  cases segs with
  | nil =>
    have hnc : NodePath.normalizeChars tok.toList = tok := by
      unfold NodePath.normalizeChars
      rw [if_neg htok5, splitOnChar_no_sep '/' tok.toList htok3,
        normSegs_clean false [tok.toList]
          (by intro s hs; rw [List.mem_singleton.mp hs]; exact htok2)]
      rw [show joinSegs '/' [tok.toList] = tok.toList from rfl]
      rw [if_neg htok2.1]
      rfl
    have hunfold : NodePath.join [tok, ""] =
        (if [tok, ""].filter (fun p => p ≠ "") = [] then "."
         else NodePath.normalizeChars
           (joinSegs '/' (([tok, ""].filter (fun p => p ≠ "")).map String.toList))) := rfl
    show startsWithChars (joinPathFragments [tok, ""]) tok = true
    unfold joinPathFragments
    rw [hunfold, filter_pair_right_empty tok htokne, if_neg (by simp)]
    rw [show joinSegs '/' ([tok].map String.toList) = tok.toList from rfl]
    rw [hnc, normalizePath_id tok (fun c hc hcc => htok4 (hcc ▸ hc))]
    exact (isPrefixOf_iff_exists _ _).mpr ⟨[], (List.append_nil _).symm⟩
  | cons s0 rest =>
    obtain ⟨x, xs, hx⟩ : ∃ x xs, tok.toList = x :: xs := by
      cases hh : tok.toList with
      | nil => exact absurd hh htok2.1
      | cons x xs => exact ⟨x, xs, rfl⟩
    have hs0 := hsegs s0 (List.mem_cons_self s0 rest)
    obtain ⟨r0, hr0⟩ := joinSegs_cons_append '/' s0 rest
    have hLne : joinSegs '/' (s0 :: rest) ≠ [] := by
      rw [hr0]
      intro hh
      exact hs0.1.1 (List.append_eq_nil.mp hh).1
    have hrelne : String.mk (joinSegs '/' (s0 :: rest)) ≠ "" := by
      intro hh
      exact hLne (congrArg String.toList hh)
    have hunfold : NodePath.join [tok, String.mk (joinSegs '/' (s0 :: rest))] =
        (if [tok, String.mk (joinSegs '/' (s0 :: rest))].filter (fun p => p ≠ "") = [] then "."
         else NodePath.normalizeChars
           (joinSegs '/' (([tok, String.mk (joinSegs '/' (s0 :: rest))].filter
             (fun p => p ≠ "")).map String.toList))) := rfl
    unfold joinPathFragments
    rw [hunfold, filter_pair_ne tok _ htokne hrelne, if_neg (by simp)]
    rw [show joinSegs '/' (([tok, String.mk (joinSegs '/' (s0 :: rest))].map String.toList)) =
      tok.toList ++ '/' :: joinSegs '/' (s0 :: rest) from rfl]
    have hsplit : splitOnChar '/' (tok.toList ++ '/' :: joinSegs '/' (s0 :: rest)) =
        tok.toList :: s0 :: rest := by
      rw [splitOnChar_append '/' tok.toList _ htok3,
        splitOnChar_joinSegs '/' (s0 :: rest) (by simp) (fun l hl => (hsegs l hl).2.1)]
    have hhead : ¬ (tok.toList ++ '/' :: joinSegs '/' (s0 :: rest)).head? = some '/' := by
      rw [hx]
      intro hh
      simp only [List.cons_append, List.head?_cons, Option.some.injEq] at hh
      exact htok3 (by rw [hx]; exact hh ▸ List.mem_cons_self x xs)
    have hcleanall : ∀ s ∈ tok.toList :: s0 :: rest, cleanSeg s := by
      intro s hs
      rcases List.mem_cons.mp hs with rfl | hs2
      · exact htok2
      · exact (hsegs s hs2).1
    have hnc : NodePath.normalizeChars (tok.toList ++ '/' :: joinSegs '/' (s0 :: rest)) =
        String.mk (tok.toList ++ '/' :: joinSegs '/' (s0 :: rest)) := by
      unfold NodePath.normalizeChars
      rw [if_neg hhead, hsplit, normSegs_clean false _ hcleanall]
      rw [show joinSegs '/' (tok.toList :: s0 :: rest) =
        tok.toList ++ '/' :: joinSegs '/' (s0 :: rest) from rfl]
      rw [if_neg (by rw [hx]; simp)]
    rw [hnc]
    have hchars : ∀ c ∈ (String.mk (tok.toList ++ '/' :: joinSegs '/' (s0 :: rest))).toList,
        c ≠ '\\' := by
      intro c hc
      rw [toList_mk] at hc
      rcases List.mem_append.mp hc with h4 | h4
      · intro hcc
        exact htok4 (hcc ▸ h4)
      · rcases List.mem_cons.mp h4 with rfl | h5
        · decide
        · rcases mem_joinSegs '/' _ c h5 with h6 | ⟨u, hu, hcu⟩
          · subst h6
            decide
          · intro hcc
            exact (hsegs u hu).2.2 (hcc ▸ hcu)
    rw [normalizePath_id _ hchars]
    unfold startsWithChars
    rw [toList_mk]
    exact (isPrefixOf_iff_exists _ _).mpr ⟨'/' :: joinSegs '/' (s0 :: rest), rfl⟩

/-- `normalizeOutput` with its internal bindings substituted. -/
theorem normalizeOutput_unfold (path w p : String) :
    normalizeOutput path w p =
      (if startsWithChars (normalizePath (NodePath.relative (NodePath.resolve w p)
          (NodePath.resolve (NodePath.resolve w p) path))) ".." = true then
        joinPathFragments ["{workspaceRoot}",
          NodePath.relative w (NodePath.resolve (NodePath.resolve w p) path)]
      else
        joinPathFragments ["{projectRoot}",
          normalizePath (NodePath.relative (NodePath.resolve w p)
            (NodePath.resolve (NodePath.resolve w p) path))]) := rfl

/-! ## C3 — token locality of `normalizeOutput` -/

/-- C3 counterexample: the candidate output `..data` resolved against
project root `p` of workspace `/w` lies inside the project root (it is a
file of the project directory whose name merely begins with two dots), yet
`normalizeOutput` does not produce a project-root token — the
`startsWith('..')` test misclassifies it to the workspace branch. A path
escaping the workspace root entirely (`/etc/passwd`) is emitted as a raw
path with no token at all. -/
theorem c3_inside_counterexample :
    isInside (NodePath.resolve "/w" "p")
        (NodePath.resolve (NodePath.resolve "/w" "p") "..data") = true ∧
      startsWithChars (normalizeOutput "..data" "/w" "p") "{projectRoot}" = false ∧
      normalizeOutput "..data" "/w" "p" = "{workspaceRoot}/p/..data" ∧
      normalizeOutput "/etc/passwd" "/w" "p" = "etc/passwd" ∧
      startsWithChars (normalizeOutput "/etc/passwd" "/w" "p") "{workspaceRoot}" = false ∧
      startsWithChars (normalizeOutput "/etc/passwd" "/w" "p") "{projectRoot}" = false := by
  refine ⟨by decide, by decide, by decide, by decide, by decide, by decide⟩

/-- C3 amended: over backslash-free inputs, (1) whenever the
project-relative form of the resolved path does not begin with `..` — in
particular for every in-project path whose first segment does not itself
begin with `..` — the result begins with the `{projectRoot}` token;
(2) whenever the resolved path escapes the project root but stays inside
the workspace root, the result begins with the `{workspaceRoot}` token;
(3) the result never contains a backslash (forward slashes only). An
in-project path whose leading segment begins with `..` is misclassified to
the workspace branch, and a path escaping the workspace root is emitted
without any token (see the counterexample). -/
theorem c3_normalizeOutput_token_locality (path workspaceRoot projectRoot : String)
    (hb1 : noBackslash path) (hb2 : noBackslash workspaceRoot) (hb3 : noBackslash projectRoot) :
    ((startsWithChars (normalizePath (NodePath.relative (NodePath.resolve workspaceRoot projectRoot)
        (NodePath.resolve (NodePath.resolve workspaceRoot projectRoot) path))) ".." = false →
      startsWithChars (normalizeOutput path workspaceRoot projectRoot) "{projectRoot}" = true) ∧
      (isInside (NodePath.resolve workspaceRoot projectRoot)
          (NodePath.resolve (NodePath.resolve workspaceRoot projectRoot) path) = false →
        isInside workspaceRoot (NodePath.resolve (NodePath.resolve workspaceRoot projectRoot) path) = true →
        startsWithChars (normalizeOutput path workspaceRoot projectRoot) "{workspaceRoot}" = true) ∧
      (∀ c ∈ (normalizeOutput path workspaceRoot projectRoot).toList, c ≠ '\\')) := by
  have hbPR : noBackslash (NodePath.resolve workspaceRoot projectRoot) :=
    noBackslash_resolve workspaceRoot projectRoot hb2 hb3
  have hbP : noBackslash (NodePath.resolve (NodePath.resolve workspaceRoot projectRoot) path) :=
    noBackslash_resolve _ path hbPR hb1
  have hnp : normalizePath (NodePath.relative (NodePath.resolve workspaceRoot projectRoot)
      (NodePath.resolve (NodePath.resolve workspaceRoot projectRoot) path)) =
      NodePath.relative (NodePath.resolve workspaceRoot projectRoot)
        (NodePath.resolve (NodePath.resolve workspaceRoot projectRoot) path) :=
    normalizePath_id _ (noBackslash_relative _ _ hbP)
  have hsegsPR : ∀ s ∈ (dropShared
      (absSegs (NodePath.resolve workspaceRoot projectRoot))
      (absSegs (NodePath.resolve (NodePath.resolve workspaceRoot projectRoot) path))).2,
      cleanSeg s ∧ '/' ∉ s ∧ '\\' ∉ s := by
    intro s hs
    have hmem := dropShared_right_subset _ _ s hs
    have h3 := mem_absSegs _ s hmem
    exact ⟨h3.1, h3.2.1, fun hbs => hbP (h3.2.2 '\\' hbs)⟩
  have hsegsW : ∀ s ∈ (dropShared
      (absSegs workspaceRoot)
      (absSegs (NodePath.resolve (NodePath.resolve workspaceRoot projectRoot) path))).2,
      cleanSeg s ∧ '/' ∉ s ∧ '\\' ∉ s := by
    intro s hs
    have hmem := dropShared_right_subset _ _ s hs
    have h3 := mem_absSegs _ s hmem
    exact ⟨h3.1, h3.2.1, fun hbs => hbP (h3.2.2 '\\' hbs)⟩
  refine ⟨?_, ?_, ?_⟩
  · intro hguard
    have hguard2 : startsWithChars (NodePath.relative (NodePath.resolve workspaceRoot projectRoot)
        (NodePath.resolve (NodePath.resolve workspaceRoot projectRoot) path)) ".." = false := by
      rw [← hnp]
      exact hguard
    have hups := ups_nil_of_not_startsWith _ _ hguard2
    rw [normalizeOutput_unfold, hguard, if_neg Bool.false_ne_true, hnp,
      relative_structure, hups]
    simp only [List.map_nil, List.nil_append]
    exact joinPathFragments_token "{projectRoot}" _ (by decide) (by decide) (by decide)
      (by decide) hsegsPR
  · intro hin1 hin2
    have hups : (dropShared
        (absSegs (NodePath.resolve workspaceRoot projectRoot))
        (absSegs (NodePath.resolve (NodePath.resolve workspaceRoot projectRoot) path))).1 ≠ [] := by
      intro hh
      have h5 : isInside (NodePath.resolve workspaceRoot projectRoot)
          (NodePath.resolve (NodePath.resolve workspaceRoot projectRoot) path) = true :=
        (dropShared_nil_iff _ _).mp hh
      rw [hin1] at h5
      exact Bool.false_ne_true h5
    have hguard : startsWithChars (normalizePath (NodePath.relative
        (NodePath.resolve workspaceRoot projectRoot)
        (NodePath.resolve (NodePath.resolve workspaceRoot projectRoot) path))) ".." = true := by
      rw [hnp]
      exact startsWith_dotdot_of_ups _ _ hups
    have hups2 : (dropShared (absSegs workspaceRoot)
        (absSegs (NodePath.resolve (NodePath.resolve workspaceRoot projectRoot) path))).1 = [] :=
      (dropShared_nil_iff _ _).mpr hin2
    rw [normalizeOutput_unfold, hguard, if_pos rfl, relative_structure, hups2]
    simp only [List.map_nil, List.nil_append]
    exact joinPathFragments_token "{workspaceRoot}" _ (by decide) (by decide) (by decide)
      (by decide) hsegsW
  · rw [normalizeOutput_unfold]
    split
    · exact noBackslash_joinPathFragments _
    · exact noBackslash_joinPathFragments _

/-- C3 witness: the in-tree output `custom/out.cache` gets the
project-root token, and the escaping output `../shared/out` gets the
workspace-root token. -/
theorem c3_normalizeOutput_token_locality_witness :
    startsWithChars (normalizeOutput "custom/out.cache" "/ws" "pkg") "{projectRoot}" = true ∧
      startsWithChars (normalizeOutput "../shared/out" "/ws" "pkg") "{workspaceRoot}" = true :=
  ⟨(c3_normalizeOutput_token_locality "custom/out.cache" "/ws" "pkg"
      (by decide) (by decide) (by decide)).1 (by decide),
    (c3_normalizeOutput_token_locality "../shared/out" "/ws" "pkg"
      (by decide) (by decide) (by decide)).2.1 (by decide) (by decide)⟩

/-! ## C4 — memoization never alters the output -/

/-- `createNodesInternal` with its internal bindings substituted. -/
theorem createNodesInternal_unfold (ws : Workspace) (f : String)
    (opts : PhpUnitPluginOptions) (c : TargetsCache) :
    createNodesInternal ws f opts c =
      (match ws.listDir (NodePath.join [ws.workspaceRoot, NodePath.dirname f]) with
       | none => (Except.error ("ENOENT: " ++ NodePath.dirname f), c)
       | some siblingFiles =>
         if (!siblingFiles.contains "composer.json") = true then
           (Except.ok { projects := [] }, c)
         else
           match lookupCache c (NodePath.dirname f, normalizeOptions opts) with
           | some cached =>
             (Except.ok { projects := [(NodePath.dirname f,
                 { name := ws.composerName (NodePath.dirname f), root := NodePath.dirname f,
                   targets := cached.targets, metadata := cached.metadata })] }, c)
           | none =>
             (Except.ok { projects := [(NodePath.dirname f,
                 { name := ws.composerName (NodePath.dirname f), root := NodePath.dirname f,
                   targets := (buildPhpUnitTargets ws f (NodePath.dirname f)
                     (normalizeOptions opts)).targets,
                   metadata := (buildPhpUnitTargets ws f (NodePath.dirname f)
                     (normalizeOptions opts)).metadata })] },
              ((NodePath.dirname f, normalizeOptions opts),
                buildPhpUnitTargets ws f (NodePath.dirname f) (normalizeOptions opts)) :: c)) := rfl

/-- One `createNodesInternal` call either leaves the store unchanged or
inserts exactly its own freshly built entry under its own content hash. -/
theorem createNodesInternal_cache_shape (ws : Workspace) (f : String)
    (opts : PhpUnitPluginOptions) (c : TargetsCache) :
    (createNodesInternal ws f opts c).2 = c ∨
      (lookupCache c (NodePath.dirname f, normalizeOptions opts) = none ∧
        (createNodesInternal ws f opts c).2 =
          ((NodePath.dirname f, normalizeOptions opts),
            buildPhpUnitTargets ws f (NodePath.dirname f) (normalizeOptions opts)) :: c) := by
  rw [createNodesInternal_unfold]
  cases hld : ws.listDir (NodePath.join [ws.workspaceRoot, NodePath.dirname f]) with
  | none => exact Or.inl rfl
  | some sibs =>
    cases hman : sibs.contains "composer.json" with
    | true =>
      simp only [hman, Bool.not_true, Bool.false_eq_true, if_false]
      cases hlook : lookupCache c (NodePath.dirname f, normalizeOptions opts) with
      | none =>
        right
        constructor <;> rfl
      | some v =>
        left
        trivial
    | false =>
      simp only [hman, Bool.not_false, if_true]
      left
      trivial

/-- Store entries survive a `createNodesInternal` call. -/
theorem lookupCache_mono (ws : Workspace) (f : String) (opts : PhpUnitPluginOptions)
    (c : TargetsCache) (k : CacheKey) (v : PhpUnitTargets)
    (h : lookupCache c k = some v) :
    lookupCache (createNodesInternal ws f opts c).2 k = some v := by
  rcases createNodesInternal_cache_shape ws f opts c with h1 | ⟨hnone, heq⟩
  · rw [h1]
    exact h
  · rw [heq]
    unfold lookupCache
    split
    · rename_i hcond
      rw [show ((NodePath.dirname f, normalizeOptions opts),
          buildPhpUnitTargets ws f (NodePath.dirname f) (normalizeOptions opts)).1 =
          (NodePath.dirname f, normalizeOptions opts) from rfl] at hcond
      rw [hcond] at hnone
      rw [h] at hnone
      cases hnone
    · exact h

/-- With a faithful store, the result of `createNodesInternal` equals the
result computed against an empty store. -/
theorem createNodesInternal_result_faithful (ws : Workspace) (files : List String)
    (opts : PhpUnitPluginOptions) (c : TargetsCache) (f : String)
    (hgood : CacheFaithful ws files opts c) (hf : f ∈ files) :
    (createNodesInternal ws f opts c).1 = (createNodesInternal ws f opts []).1 := by
  rw [createNodesInternal_unfold ws f opts c, createNodesInternal_unfold ws f opts []]
  cases hld : ws.listDir (NodePath.join [ws.workspaceRoot, NodePath.dirname f]) with
  | none => rfl
  | some sibs =>
    cases hman : sibs.contains "composer.json" with
    | true =>
      simp only [hman, Bool.not_true, Bool.false_eq_true, if_false]
      cases hlook : lookupCache c (NodePath.dirname f, normalizeOptions opts) with
      | none => rfl
      | some v =>
        rw [hgood f hf v hlook]
        rfl
    | false =>
      simp only [hman, Bool.not_false, if_true]

/-- A `createNodesInternal` call keeps the store faithful, provided no two
distinct run files share a project directory (the glob `**/phpunit.xml`
guarantees this: the base name is fixed). -/
theorem createNodesInternal_preserves_faithful (ws : Workspace) (files : List String)
    (opts : PhpUnitPluginOptions) (c : TargetsCache) (f : String)
    (hgood : CacheFaithful ws files opts c) (hf : f ∈ files)
    (hdir : ∀ g ∈ files, NodePath.dirname g = NodePath.dirname f → g = f) :
    CacheFaithful ws files opts (createNodesInternal ws f opts c).2 := by
  rcases createNodesInternal_cache_shape ws f opts c with h1 | ⟨hnone, heq⟩
  · rw [h1]
    exact hgood
  · rw [heq]
    intro g hg v hlook
    unfold lookupCache at hlook
    split at hlook
    · rename_i hcond
      injection hlook with hv
      have hdg : NodePath.dirname g = NodePath.dirname f := by
        have h2 := congrArg Prod.fst hcond
        exact h2.symm
      have hgf : g = f := hdir g hg hdg
      subst hgf
      rw [← hv]
    · exact hgood g hg v hlook

/-- Over a faithful store, a run returns the from-scratch results and
keeps the store faithful. -/
theorem processFiles_results_faithful (ws : Workspace) (opts : PhpUnitPluginOptions)
    (files : List String)
    (hdir : ∀ f ∈ files, ∀ g ∈ files, NodePath.dirname f = NodePath.dirname g → f = g) :
    ∀ (fs : List String), (∀ f ∈ fs, f ∈ files) →
      ∀ (c : TargetsCache), CacheFaithful ws files opts c →
        (processFiles ws fs opts c).1 =
            fs.map (fun f => (createNodesInternal ws f opts []).1) ∧
          CacheFaithful ws files opts (processFiles ws fs opts c).2 := by
  intro fs
  induction fs with
  | nil => intro _ c hgood; exact ⟨rfl, hgood⟩
  | cons f rest ih =>
    intro hsub c hgood
    have hf : f ∈ files := hsub f (List.mem_cons_self f rest)
    have hres := createNodesInternal_result_faithful ws files opts c f hgood hf
    have hpres := createNodesInternal_preserves_faithful ws files opts c f hgood hf
      (fun g hg hdg => hdir g hg f hf hdg)
    obtain ⟨ih1, ih2⟩ := ih (fun g hg => hsub g (List.mem_cons_of_mem f hg))
      (createNodesInternal ws f opts c).2 hpres
    constructor
    · show (createNodesInternal ws f opts c).1 ::
          (processFiles ws rest opts (createNodesInternal ws f opts c).2).1 = _
      rw [hres, ih1]
      rfl
    · exact ih2

/-- After a `createNodesInternal` call, the store holds the caller's own
key whenever the file reaches the build step. -/
theorem createNodesInternal_completes (ws : Workspace) (f : String)
    (opts : PhpUnitPluginOptions) (c : TargetsCache) (hreach : ReachesBuild ws f) :
    (lookupCache (createNodesInternal ws f opts c).2
      (NodePath.dirname f, normalizeOptions opts)).isSome = true := by
  obtain ⟨sibs, hld, hman⟩ := hreach
  rw [createNodesInternal_unfold, hld]
  simp only [hman, Bool.not_true, Bool.false_eq_true, if_false]
  cases hlook : lookupCache c (NodePath.dirname f, normalizeOptions opts) with
  | some v =>
    show (lookupCache c (NodePath.dirname f, normalizeOptions opts)).isSome = true
    rw [hlook]
    rfl
  | none =>
    show (lookupCache (((NodePath.dirname f, normalizeOptions opts),
        buildPhpUnitTargets ws f (NodePath.dirname f) (normalizeOptions opts)) :: c)
      (NodePath.dirname f, normalizeOptions opts)).isSome = true
    unfold lookupCache
    rw [if_pos rfl]
    rfl

/-- Store entries survive a whole run. -/
theorem processFiles_cache_mono (ws : Workspace) (opts : PhpUnitPluginOptions) :
    ∀ (fs : List String) (c : TargetsCache) (k : CacheKey) (v : PhpUnitTargets),
      lookupCache c k = some v → lookupCache (processFiles ws fs opts c).2 k = some v := by
  intro fs
  induction fs with
  | nil => intro c k v h; exact h
  | cons f rest ih =>
    intro c k v h
    show lookupCache (processFiles ws rest opts (createNodesInternal ws f opts c).2).2 k = some v
    exact ih _ k v (lookupCache_mono ws f opts c k v h)

/-- After a run, the store holds a key for every processed file that
reaches the build step. -/
theorem processFiles_completes (ws : Workspace) (opts : PhpUnitPluginOptions) :
    ∀ (fs : List String) (c : TargetsCache), ∀ f ∈ fs, ReachesBuild ws f →
      (lookupCache (processFiles ws fs opts c).2
        (NodePath.dirname f, normalizeOptions opts)).isSome = true := by
  intro fs
  induction fs with
  | nil => intro c f hf; cases hf
  | cons g rest ih =>
    intro c f hf hreach
    rcases List.mem_cons.mp hf with rfl | hf2
    · have h1 := createNodesInternal_completes ws f opts c hreach
      obtain ⟨v, hv⟩ := Option.isSome_iff_exists.mp h1
      show (lookupCache (processFiles ws rest opts (createNodesInternal ws f opts c).2).2
        (NodePath.dirname f, normalizeOptions opts)).isSome = true
      rw [processFiles_cache_mono ws opts rest _ _ v hv]
      rfl
    · show (lookupCache (processFiles ws rest opts (createNodesInternal ws g opts c).2).2
        (NodePath.dirname f, normalizeOptions opts)).isSome = true
      exact ih _ f hf2 hreach

/-- When the store already holds the caller's key (or the file never
reaches the build step), `createNodesInternal` leaves the store
untouched. -/
theorem createNodesInternal_cache_stable (ws : Workspace) (f : String)
    (opts : PhpUnitPluginOptions) (c : TargetsCache)
    (h : ReachesBuild ws f →
      (lookupCache c (NodePath.dirname f, normalizeOptions opts)).isSome = true) :
    (createNodesInternal ws f opts c).2 = c := by
  rw [createNodesInternal_unfold]
  cases hld : ws.listDir (NodePath.join [ws.workspaceRoot, NodePath.dirname f]) with
  | none => rfl
  | some sibs =>
    cases hman : sibs.contains "composer.json" with
    | false =>
      simp only [hman, Bool.not_false, if_true]
    | true =>
      simp only [hman, Bool.not_true, Bool.false_eq_true, if_false]
      obtain ⟨v, hv⟩ := Option.isSome_iff_exists.mp (h ⟨sibs, hld, hman⟩)
      rw [hv]

/-- A faithful, complete store makes a whole run a no-op on the store while
returning the from-scratch results. -/
theorem processFiles_stable (ws : Workspace) (opts : PhpUnitPluginOptions)
    (files : List String) :
    ∀ (fs : List String), (∀ f ∈ fs, f ∈ files) →
      ∀ (c : TargetsCache), CacheFaithful ws files opts c →
        (∀ f ∈ fs, ReachesBuild ws f →
          (lookupCache c (NodePath.dirname f, normalizeOptions opts)).isSome = true) →
        processFiles ws fs opts c =
          (fs.map (fun f => (createNodesInternal ws f opts []).1), c) := by
  intro fs
  induction fs with
  | nil => intro _ c _ _; rfl
  | cons f rest ih =>
    intro hsub c hgood hcomp
    have hstable := createNodesInternal_cache_stable ws f opts c
      (hcomp f (List.mem_cons_self f rest))
    have hres := createNodesInternal_result_faithful ws files opts c f hgood
      (hsub f (List.mem_cons_self f rest))
    have hrest := ih (fun g hg => hsub g (List.mem_cons_of_mem f hg)) c hgood
      (fun g hg hr => hcomp g (List.mem_cons_of_mem f hg) hr)
    show ((createNodesInternal ws f opts c).1 ::
        (processFiles ws rest opts (createNodesInternal ws f opts c).2).1,
        (processFiles ws rest opts (createNodesInternal ws f opts c).2).2) = _
    rw [hstable, hres, hrest]
    rfl

/-- C4: rerunning target inference with the store produced by a prior
identical run yields exactly the same per-file results and final store as
the run that started from an empty (cleared) store — the memoized result
looked up by content hash always equals the from-scratch recomputation, so
memoization never alters the output. The hypothesis (no two distinct
configuration files share a directory) is guaranteed by the
`**/phpunit.xml` glob, whose matches all share the base name. -/
theorem c4_memoization_transparent (ws : Workspace) (files : List String)
    (options : PhpUnitPluginOptions)
    (hdir : ∀ f ∈ files, ∀ g ∈ files, NodePath.dirname f = NodePath.dirname g → f = g) :
    processFiles ws files options (processFiles ws files options []).2 =
      processFiles ws files options [] := by
  have hgood0 : CacheFaithful ws files options [] := by
    intro f hf v hl
    cases hl
  obtain ⟨hres1, hgood1⟩ := processFiles_results_faithful ws options files hdir files
    (fun f hf => hf) [] hgood0
  have hcomp1 : ∀ f ∈ files, ReachesBuild ws f →
      (lookupCache (processFiles ws files options []).2
        (NodePath.dirname f, normalizeOptions options)).isSome = true :=
    fun f hf hr => processFiles_completes ws options files [] f hf hr
  have hstable := processFiles_stable ws options files files (fun f hf => hf)
    (processFiles ws files options []).2 hgood1 hcomp1
  rw [hstable, ← hres1]

/-- C4 witness: a two-project workspace rerun over the store of its first
run. -/
theorem c4_memoization_transparent_witness :
    processFiles wsPlain ["pkg/phpunit.xml", "lib/phpunit.xml"] optsNone
        (processFiles wsPlain ["pkg/phpunit.xml", "lib/phpunit.xml"] optsNone []).2 =
      processFiles wsPlain ["pkg/phpunit.xml", "lib/phpunit.xml"] optsNone [] :=
  c4_memoization_transparent wsPlain ["pkg/phpunit.xml", "lib/phpunit.xml"] optsNone (by decide)

end PhpUnitPlugin
